import Mathlib

/-!
Verification of the core solving engine of the mineshpatel1/wordle repository.

The development shallowly embeds the Python sources:
  * src/wordle_fast.py : get_hint_from_guess, get_info_from_hints,
    filter_words_from_info, get_prob_and_iv, get_information_value,
    compute_entropy, sort_by_entropy, compute_many_entropies, get_best_move
  * src/wordle.py : Game.guess, _guess_mask, _get_information_value

Words are lists of characters; Python dicts keyed by letters/positions are
insertion-ordered association lists (dupsert mirrors dict assignment, which
overwrites in place and otherwise appends); Python sets of letters are
duplicate-free lists grown with sinsert (Python set iteration order is
unspecified, but every use below is order-independent, see the comments at
the points where a set is folded over).
-/

namespace Wordle

/-- Tri-state hint alphabet: 🟩 / 🟨 / ⬛ in wordle_fast.py, C / P / . in
the basic form of wordle.py. -/
inductive HintS where
  | correct
  | misplaced
  | wrong
deriving DecidableEq, Repr

abbrev Word := List Char

/-- Python str.upper() on a word (all words handled by the engine are
normalised with .upper() on load or on entry). -/
def pyUpper (w : Word) : Word := w.map Char.toUpper

/-- First-occurrence-keeping deduplication: the key order of a Python dict
built by repeated assignment, and the iteration order of dict.items(). -/
def pyDedup {α : Type} [DecidableEq α] : List α → List α
  | [] => []
  | a :: l => a :: (pyDedup l).filter (fun b => b ≠ a)

/-- Python dict assignment d[k] = v: overwrite in place if the key is
present, else append (insertion order preserved). -/
def dupsert {κ ν : Type} [DecidableEq κ] (k : κ) (v : ν) : List (κ × ν) → List (κ × ν)
  | [] => [(k, v)]
  | (k', v') :: rest => if k' = k then (k, v) :: rest else (k', v') :: dupsert k v rest

/-- Python dict lookup d.get(k): the value of the first (hence, for
dupsert-built lists, only) entry with the given key. -/
def dget {κ ν : Type} [DecidableEq κ] (k : κ) : List (κ × ν) → Option ν
  | [] => none
  | (k', v') :: rest => if k' = k then some v' else dget k rest

/-- Python dict lookup with default, d.get(k, d0). -/
def dgetD {κ ν : Type} [DecidableEq κ] (k : κ) (l : List (κ × ν)) (d0 : ν) : ν :=
  (dget k l).getD d0

/-- Python set insertion s.add(a) (membership-based, order of first
insertion kept so the model is deterministic). -/
def sinsert {α : Type} [DecidableEq α] (a : α) (s : List α) : List α :=
  if a ∈ s then s else s ++ [a]

/-! ### Hint encoder

Transcription of get_hint_from_guess (src/wordle_fast.py lines 90-137); the
identical algorithm appears as _guess_mask (src/wordle.py lines 486-531),
which is the same function modulo the output alphabet and the fact that
_guess_mask does not re-uppercase its (already uppercase) inputs. -/

/-- One position of the first pass: correct letter and position / correct
letter, wrong position (membership tested against the whole answer) /
incorrect letter. -/
def naiveF (answer : Word) (g a : Char) : HintS :=
  if g = a then HintS.correct
  else if g ∈ answer then HintS.misplaced
  else HintS.wrong

/-- First pass of the encoder: position-wise classification. -/
def naive_hint (guess answer : Word) : List HintS :=
  List.zipWith (naiveF answer) guess answer

/-- Count of exact matches of the repeated letter, read off the hint:
the first correction loop of get_hint_from_guess. -/
def correct_count (c : Char) (l : List (Char × HintS)) : Nat :=
  l.countP (fun p => decide (p.1 = c ∧ p.2 = HintS.correct))

/-- Second correction loop of get_hint_from_guess: walk the hint
left-to-right; each MISPLACED occurrence of the repeated letter bumps the
running count, and is demoted to WRONG once the count exceeds the number of
occurrences in the answer. -/
def demote (c : Char) (numInAnswer : Nat) : Nat → List (Char × HintS) → List HintS
  | _, [] => []
  | m, (g, h) :: rest =>
    if g = c ∧ h = HintS.misplaced then
      (if numInAnswer < m + 1 then HintS.wrong else HintS.misplaced)
        :: demote c numInAnswer (m + 1) rest
    else
      h :: demote c numInAnswer m rest

/-- Correction pass for one repeated letter (body of the
for repeated_letter in repeated_letters loop): letters absent from the
answer are skipped, otherwise exact matches are counted first and excess
MISPLACED occurrences are demoted left-to-right. -/
def apply_correction (guess answer : Word) (hint : List HintS) (c : Char) : List HintS :=
  if c ∈ answer then
    demote c (answer.count c) (correct_count c (guess.zip hint)) (guess.zip hint)
  else hint

/-- Letters occurring more than once in the guess. The Python code iterates
over a set; corrections for distinct letters commute (each only reads and
writes positions holding its own letter), so we fix the first-occurrence
order to make the model deterministic. -/
def repeated_letters (guess : Word) : List Char :=
  (pyDedup guess).filter (fun c => decide (1 < guess.count c))

/-- Encoder core on already-uppercase words (this is exactly _guess_mask of
src/wordle.py, whose callers pass pre-uppercased strings). -/
def hint_core (guess answer : Word) : List HintS :=
  (repeated_letters guess).foldl (apply_correction guess answer) (naive_hint guess answer)

/-- Fast implementation of guessing logic with basic types
(src/wordle.py _guess_mask). -/
def guess_mask (word answer : Word) : List HintS := hint_core word answer

/-- get_hint_from_guess of src/wordle_fast.py: uppercases both inputs, then
runs the two-pass encoding. -/
def get_hint_from_guess (guess answer : Word) : List HintS :=
  hint_core (pyUpper guess) (pyUpper answer)

example :
    get_hint_from_guess ['K','E','E','P','S'] ['A','B','B','E','Y'] =
      [HintS.wrong, HintS.misplaced, HintS.wrong, HintS.wrong, HintS.wrong] := by
  decide

example :
    get_hint_from_guess ['T','H','E','R','E'] ['W','H','E','R','E'] =
      [HintS.wrong, HintS.correct, HintS.correct, HintS.correct, HintS.correct] := by
  decide

example :
    get_hint_from_guess ['A','A','R','O','N'] ['K','O','R','A','N'] =
      [HintS.misplaced, HintS.wrong, HintS.correct, HintS.misplaced, HintS.correct] := by
  decide

example :
    get_hint_from_guess ['C','R','A','N','E'] ['C','H','E','S','T'] =
      [HintS.correct, HintS.wrong, HintS.wrong, HintS.wrong, HintS.misplaced] := by
  decide

/-! ### Constraint aggregator

Transcription of get_info_from_hints (src/wordle_fast.py lines 140-169).
The four components keep their Python representations: correct is a dict
position → letter, wrong_position and not_in_word are sets, and
max_occurrences is a dict letter → count. -/

/-- Aggregated knowledge from all guesses so far. -/
structure Info where
  correct : List (Nat × Char)
  wrong_position : List (Char × Nat)
  not_in_word : List Char
  max_occurrences : List (Char × Nat)
deriving DecidableEq, Repr

def Info.empty : Info := ⟨[], [], [], []⟩

/-- Body of the inner position loop of get_info_from_hints: the per-guess
include counter always receives a (possibly zero) entry for the letter, then
the match on the hint state updates the constraint components. -/
def agg_step (j : Nat) (letter : Char) (st : HintS)
    (acc : Info × List (Char × Nat) × List Char) : Info × List (Char × Nat) × List Char :=
  let info := acc.1
  let include' := dupsert letter (dgetD letter acc.2.1 0) acc.2.1
  let exclude := acc.2.2
  match st with
  | HintS.correct =>
      ({ info with correct := dupsert j letter info.correct },
        dupsert letter (dgetD letter include' 0 + 1) include', exclude)
  | HintS.misplaced =>
      ({ info with wrong_position := sinsert (letter, j) info.wrong_position },
        dupsert letter (dgetD letter include' 0 + 1) include', exclude)
  | HintS.wrong =>
      ({ info with not_in_word := sinsert letter info.not_in_word },
        include', sinsert letter exclude)

/-- Inner loop of get_info_from_hints over the positions of one guess/hint
pair (Python enumerates the hint and indexes the guess; the zip is the same
for the equal-length data every session produces). -/
def agg_positions : Nat → List (Char × HintS) → Info × List (Char × Nat) × List Char →
    Info × List (Char × Nat) × List Char
  | _, [], acc => acc
  | j, (letter, st) :: rest, acc => agg_positions (j + 1) rest (agg_step j letter st acc)

/-- Body of the cap loop: record the included count of the letter as its
maximum number of occurrences when the letter was both included (count > 0)
and excluded within the guess. -/
def cap_step (exclude : List Char) (inf : Info) (p : Char × Nat) : Info :=
  if 0 < p.2 ∧ p.1 ∈ exclude then
    { inf with max_occurrences := dupsert p.1 p.2 inf.max_occurrences }
  else inf

/-- Per-guess cap pass: fold of cap_step over the include dict entries.
Python iterates over the include dict, whose keys are distinct, so the fold
is per-key deterministic. -/
def agg_caps (exclude : List Char) (include' : List (Char × Nat)) (info : Info) : Info :=
  include'.foldl (cap_step exclude) info

/-- Processing of one (guess, hint) pair of the outer loop. -/
def process_guess (info : Info) (guess : Word) (hint : List HintS) : Info :=
  let acc := agg_positions 0 (guess.zip hint) (info, [], [])
  agg_caps acc.2.2 acc.2.1 acc.1

/-- get_info_from_hints of src/wordle_fast.py: aggregates the information
from guesses and hints. -/
def get_info_from_hints (guesses : List Word) (hints : List (List HintS)) : Info :=
  (guesses.zip hints).foldl (fun info p => process_guess info p.1 p.2) Info.empty

/-! ### Filter engine

Transcription of filter_words_from_info (src/wordle_fast.py lines 229-254).
Indexing word[pos] is modelled with List.get?; every position produced by a
session is below the uniform word length 5, where the two agree. -/

/-- The candidate predicate: the conjunction tested inside the loop of
filter_words_from_info, including the max_occurrences pre-scan
(exceeded_max) and the presence-dominates-absence proviso on not_in_word. -/
def word_fits (info : Info) (word : Word) : Prop :=
  let answer_has_letter := info.correct.map Prod.snd ++ info.wrong_position.map Prod.fst
  (∀ p ∈ info.correct, word.get? p.1 = some p.2) ∧
  (∀ p ∈ info.wrong_position, p.1 ∈ word) ∧
  (∀ p ∈ info.wrong_position, ¬ word.get? p.2 = some p.1) ∧
  (∀ c ∈ info.not_in_word, c ∉ answer_has_letter → c ∉ word) ∧
  (∀ p ∈ info.max_occurrences, word.count p.1 ≤ p.2)

instance (info : Info) (word : Word) : Decidable (word_fits info word) := by
  unfold word_fits
  exact inferInstance

/-- filter_words_from_info of src/wordle_fast.py: filters the list down
based on known information, preserving order. -/
def filter_words_from_info (word_list : List Word) (info : Info) : List Word :=
  word_list.filter (fun w => decide (word_fits info w))

/-- possible_words of the fast Game class: the word list filtered through
the aggregate of the session's guess/hint history. -/
def possible_words (word_list : List Word) (guesses : List Word)
    (hints : List (List HintS)) : List Word :=
  filter_words_from_info word_list (get_info_from_hints guesses hints)

example :
    get_info_from_hints [['C','R','A','N','E']]
        [get_hint_from_guess ['C','R','A','N','E'] ['C','H','E','S','T']] =
      ⟨[(0, 'C')], [('E', 4)], ['R', 'A', 'N'], []⟩ := by
  decide

/-! ### Lemmas about the container helpers -/

theorem mem_pyDedup {α : Type} [DecidableEq α] {a : α} : ∀ {l : List α}, a ∈ pyDedup l ↔ a ∈ l
  | [] => by simp [pyDedup]
  | b :: l => by
    by_cases hab : a = b
    · subst hab; simp [pyDedup]
    · simp only [pyDedup, List.mem_cons, List.mem_filter, decide_eq_true_eq]
      constructor
      · rintro (h | ⟨h, _⟩)
        · exact absurd h hab
        · exact Or.inr (mem_pyDedup.mp h)
      · rintro (h | h)
        · exact absurd h hab
        · exact Or.inr ⟨mem_pyDedup.mpr h, by simpa using hab⟩

theorem nodup_pyDedup {α : Type} [DecidableEq α] : ∀ (l : List α), (pyDedup l).Nodup
  | [] => by simp [pyDedup]
  | b :: l => by
    simp only [pyDedup, List.nodup_cons]
    refine ⟨fun hb => ?_, (nodup_pyDedup l).filter _⟩
    simp only [List.mem_filter, decide_eq_true_eq] at hb
    exact hb.2 rfl

theorem mem_sinsert {α : Type} [DecidableEq α] {a b : α} {s : List α} :
    a ∈ sinsert b s ↔ a = b ∨ a ∈ s := by
  unfold sinsert
  split
  · constructor
    · exact fun h => Or.inr h
    · rintro (rfl | h)
      · assumption
      · assumption
  · simp [or_comm]

theorem subset_sinsert {α : Type} [DecidableEq α] {b : α} {s : List α} :
    ∀ {a : α}, a ∈ s → a ∈ sinsert b s :=
  fun h => mem_sinsert.mpr (Or.inr h)

/-- Keys of a dict are pairwise distinct; holds for every dict built from
the empty list with dupsert. -/
def NodupKeys {κ ν : Type} (d : List (κ × ν)) : Prop := (d.map Prod.fst).Nodup

theorem mem_keys_dupsert {κ ν : Type} [DecidableEq κ] {x k : κ} {v : ν} :
    ∀ {d : List (κ × ν)}, x ∈ (dupsert k v d).map Prod.fst ↔ x = k ∨ x ∈ d.map Prod.fst
  | [] => by simp [dupsert]
  | (k', v') :: rest => by
    simp only [dupsert]
    split
    · next hk => simp [hk, or_comm, or_assoc, or_left_comm]
    · next hk =>
      simp only [List.map_cons, List.mem_cons, mem_keys_dupsert]
      tauto

theorem nodupKeys_dupsert {κ ν : Type} [DecidableEq κ] {k : κ} {v : ν} :
    ∀ {d : List (κ × ν)}, NodupKeys d → NodupKeys (dupsert k v d)
  | [], _ => by simp [NodupKeys, dupsert]
  | (k', v') :: rest, hd => by
    simp only [NodupKeys, List.map_cons, List.nodup_cons] at hd
    obtain ⟨hk', hrest⟩ := hd
    simp only [NodupKeys, dupsert]
    split
    · next hk =>
      subst hk
      simp only [List.map_cons, List.nodup_cons]
      exact ⟨hk', hrest⟩
    · next hk =>
      simp only [List.map_cons, List.nodup_cons]
      refine ⟨fun hmem => ?_, nodupKeys_dupsert hrest⟩
      rcases mem_keys_dupsert.mp hmem with h | h
      · exact hk h
      · exact hk' h

theorem dget_dupsert_self {κ ν : Type} [DecidableEq κ] {k : κ} {v : ν} :
    ∀ {d : List (κ × ν)}, dget k (dupsert k v d) = some v
  | [] => by simp [dupsert, dget]
  | (k', v') :: rest => by
    simp only [dupsert]
    split
    · simp [dget]
    · simp only [dget]
      next hk =>
      rw [if_neg hk]
      exact dget_dupsert_self

theorem dget_dupsert_ne {κ ν : Type} [DecidableEq κ] {x k : κ} {v : ν} (hx : x ≠ k) :
    ∀ {d : List (κ × ν)}, dget x (dupsert k v d) = dget x d
  | [] => by
    simp only [dupsert, dget]
    rw [if_neg (fun h => hx h.symm)]
  | (k', v') :: rest => by
    simp only [dupsert]
    split
    · next hk =>
      subst hk
      simp only [dget]
      rw [if_neg (fun h => hx h.symm), if_neg (fun h => hx h.symm)]
    · next hk =>
      simp only [dget]
      by_cases hx' : k' = x
      · rw [if_pos hx', if_pos hx']
      · rw [if_neg hx', if_neg hx']
        exact dget_dupsert_ne hx

theorem isSome_dget_dupsert {κ ν : Type} [DecidableEq κ] {x k : κ} {v : ν}
    {d : List (κ × ν)} (h : (dget x d).isSome) : (dget x (dupsert k v d)).isSome := by
  by_cases hx : x = k
  · subst hx; simp [dget_dupsert_self]
  · rwa [dget_dupsert_ne hx]

theorem mem_of_dget {κ ν : Type} [DecidableEq κ] {k : κ} {v : ν} :
    ∀ {d : List (κ × ν)}, dget k d = some v → (k, v) ∈ d
  | [], h => by simp [dget] at h
  | (k', v') :: rest, h => by
    simp only [dget] at h
    by_cases hk : k' = k
    · rw [if_pos hk] at h
      subst hk
      obtain rfl := Option.some.injEq _ _ ▸ h
      exact List.mem_cons_self _ _
    · rw [if_neg hk] at h
      exact List.mem_cons_of_mem _ (mem_of_dget h)

theorem dget_of_mem {κ ν : Type} [DecidableEq κ] {k : κ} {v : ν} :
    ∀ {d : List (κ × ν)}, NodupKeys d → (k, v) ∈ d → dget k d = some v
  | [], _, h => by simp at h
  | (k', v') :: rest, hd, h => by
    simp only [NodupKeys, List.map_cons, List.nodup_cons] at hd
    obtain ⟨hk', hrest⟩ := hd
    rcases List.mem_cons.mp h with h | h
    · obtain ⟨rfl, rfl⟩ := Prod.mk.injEq .. ▸ h
      simp [dget]
    · by_cases hk : k' = k
      · subst hk
        exact absurd (List.mem_map.mpr ⟨(k', v), h, rfl⟩) hk'
      · simp only [dget]
        rw [if_neg hk]
        exact dget_of_mem hrest h

/-! ### Indexing lemmas for zips -/

theorem get?_zipWith {α β γ : Type} (f : α → β → γ) :
    ∀ (l₁ : List α) (l₂ : List β) (i : Nat),
      (List.zipWith f l₁ l₂).get? i = (l₁.get? i).bind fun a => (l₂.get? i).map (f a)
  | [], _, _ => by simp
  | _ :: _, [], _ => by simp
  | a :: l₁, b :: l₂, 0 => by simp
  | a :: l₁, b :: l₂, i + 1 => by
    simpa using get?_zipWith f l₁ l₂ i

theorem get?_zip {α β : Type} (l₁ : List α) (l₂ : List β) (i : Nat) :
    (l₁.zip l₂).get? i = (l₁.get? i).bind fun a => (l₂.get? i).map (Prod.mk a) := by
  simpa [List.zip] using get?_zipWith Prod.mk l₁ l₂ i

theorem get?_zip_of_get? {α β : Type} {l₁ : List α} {l₂ : List β} {i : Nat}
    {a : α} {b : β} (h₁ : l₁.get? i = some a) (h₂ : l₂.get? i = some b) :
    (l₁.zip l₂).get? i = some (a, b) := by
  rw [get?_zip, h₁, h₂]
  rfl

/-! ### Lemmas about the demotion pass -/

/-- Predicate for a hint entry crediting the letter c (CORRECT or
MISPLACED occurrence of c). -/
def creditP (c : Char) : Char × HintS → Bool :=
  fun p => decide (p.1 = c ∧ p.2 ≠ HintS.wrong)

/-- Predicate for a MISPLACED occurrence of the letter c. -/
def misP (c : Char) : Char × HintS → Bool :=
  fun p => decide (p.1 = c ∧ p.2 = HintS.misplaced)

/-- Predicate for a CORRECT occurrence of the letter c. -/
def corP (c : Char) : Char × HintS → Bool :=
  fun p => decide (p.1 = c ∧ p.2 = HintS.correct)

theorem length_demote (c : Char) (n : Nat) :
    ∀ (m : Nat) (l : List (Char × HintS)), (demote c n m l).length = l.length
  | _, [] => rfl
  | m, (g, h) :: rest => by
    simp only [demote]
    split
    · simp [length_demote c n (m + 1) rest]
    · simp [length_demote c n m rest]

/-- Pointwise behaviour of the demotion pass: every entry passes through
unchanged except MISPLACED occurrences of the repeated letter, which are
demoted exactly when the running count (the initial count m plus the number
of earlier MISPLACED occurrences, plus one for this occurrence) exceeds the
answer occurrence count. -/
theorem get?_demote (c : Char) (n : Nat) :
    ∀ (l : List (Char × HintS)) (m i : Nat) (p : Char × HintS), l.get? i = some p →
      (demote c n m l).get? i = some (
        if p.1 = c ∧ p.2 = HintS.misplaced then
          (if n < m + (l.take i).countP (misP c) + 1 then HintS.wrong else HintS.misplaced)
        else p.2)
  | [], _, i, p, h => by simp at h
  | (gc, hs) :: rest, m, 0, p, h => by
    obtain rfl : (gc, hs) = p := by simpa using h
    simp only [demote, List.take_zero, List.countP_nil, Nat.add_zero]
    split
    · next hmatch => simp [if_pos hmatch]
    · next hmatch => simp [if_neg hmatch]
  | (gc, hs) :: rest, m, i + 1, p, h => by
    simp only [List.get?_cons_succ] at h
    simp only [List.take_succ_cons, List.countP_cons, demote]
    by_cases hmatch : gc = c ∧ hs = HintS.misplaced
    · rw [if_pos hmatch]
      simp only [List.get?_cons_succ]
      rw [get?_demote c n rest (m + 1) i p h]
      have hm : misP c (gc, hs) = true := by simp [misP, hmatch.1, hmatch.2]
      rw [hm, show (if true = true then 1 else 0) = 1 from rfl,
        show m + ((rest.take i).countP (misP c) + 1) + 1
          = m + 1 + (rest.take i).countP (misP c) + 1 from by omega]
    · rw [if_neg hmatch]
      simp only [List.get?_cons_succ]
      rw [get?_demote c n rest m i p h]
      have hm : misP c (gc, hs) = false := by
        simp only [misP, decide_eq_false_iff_not]
        exact hmatch
      rw [hm, show (if false = true then 1 else 0) = 0 from rfl]
      simp

/-- Entries whose letter is not the repeated letter pass through unchanged. -/
theorem get?_demote_of_ne (c : Char) (n m : Nat) {l : List (Char × HintS)} {i : Nat}
    {p : Char × HintS} (h : l.get? i = some p) (hne : p.1 ≠ c) :
    (demote c n m l).get? i = some p.2 := by
  rw [get?_demote c n l m i p h, if_neg (fun hc => hne hc.1)]

/-- The demotion pass neither creates nor destroys CORRECT entries. -/
theorem get?_demote_correct_iff (c : Char) (n m : Nat) {l : List (Char × HintS)} {i : Nat}
    {p : Char × HintS} (h : l.get? i = some p) :
    (demote c n m l).get? i = some HintS.correct ↔ p.2 = HintS.correct := by
  rw [get?_demote c n l m i p h]
  constructor
  · intro hout
    by_cases hmatch : p.1 = c ∧ p.2 = HintS.misplaced
    · rw [if_pos hmatch] at hout
      split at hout <;> simp_all
    · rw [if_neg hmatch] at hout
      simpa using hout
  · intro hc
    have hmatch : ¬ (p.1 = c ∧ p.2 = HintS.misplaced) := by
      rintro ⟨-, hm⟩
      rw [hc] at hm
      cases hm
    rw [if_neg hmatch, hc]

/-- A MISPLACED output entry was already MISPLACED in the input. -/
theorem get?_demote_misplaced (c : Char) (n m : Nat) {l : List (Char × HintS)} {i : Nat}
    {p : Char × HintS} (h : l.get? i = some p)
    (hout : (demote c n m l).get? i = some HintS.misplaced) : p.2 = HintS.misplaced := by
  rw [get?_demote c n l m i p h] at hout
  by_cases hmatch : p.1 = c ∧ p.2 = HintS.misplaced
  · exact hmatch.2
  · rw [if_neg hmatch] at hout
    simpa using hout

/-- A WRONG output at an entry that was not WRONG on input means the entry
was a demoted MISPLACED occurrence of c whose running count exceeded n. -/
theorem get?_demote_wrong (c : Char) (n m : Nat) {l : List (Char × HintS)} {i : Nat}
    {p : Char × HintS} (h : l.get? i = some p) (hin : p.2 ≠ HintS.wrong)
    (hout : (demote c n m l).get? i = some HintS.wrong) :
    p.1 = c ∧ p.2 = HintS.misplaced ∧ n < m + (l.take i).countP (misP c) + 1 := by
  rw [get?_demote c n l m i p h] at hout
  by_cases hmatch : p.1 = c ∧ p.2 = HintS.misplaced
  · rw [if_pos hmatch] at hout
    refine ⟨hmatch.1, hmatch.2, ?_⟩
    by_contra hle
    rw [if_neg hle] at hout
    simpa using hout
  · rw [if_neg hmatch] at hout
    exact absurd (Option.some.inj hout) hin

/-- If the budget is not yet exhausted, the first MISPLACED occurrence of c
survives the demotion pass. -/
theorem demote_first_kept (c : Char) (n : Nat) :
    ∀ (l : List (Char × HintS)) (m : Nat), m + 1 ≤ n → (c, HintS.misplaced) ∈ l →
      ∃ j, l.get? j = some (c, HintS.misplaced) ∧
        (demote c n m l).get? j = some HintS.misplaced
  | [], _, _, hmem => by simp at hmem
  | (gc, hs) :: rest, m, hm, hmem => by
    by_cases hmatch : gc = c ∧ hs = HintS.misplaced
    · refine ⟨0, ?_, ?_⟩
      · simp [hmatch.1, hmatch.2]
      · simp only [demote, if_pos hmatch]
        have hle : ¬ n < m + 1 := by omega
        simp [hle]
    · have hmem' : (c, HintS.misplaced) ∈ rest := by
        rcases List.mem_cons.mp hmem with h | h
        · exact absurd ⟨(Prod.ext_iff.mp h.symm).1, (Prod.ext_iff.mp h.symm).2⟩ hmatch
        · exact h
      obtain ⟨j, hj, hjout⟩ := demote_first_kept c n rest m hm hmem'
      refine ⟨j + 1, ?_, ?_⟩
      · simpa using hj
      · simp only [demote, if_neg hmatch]
        simpa using hjout

/-- Credit count after the demotion pass: all CORRECT occurrences of c are
kept, and of the MISPLACED ones exactly min(number present, n - m) are
kept. -/
theorem countP_credit_demote (c : Char) (n : Nat) :
    ∀ (l : List (Char × HintS)) (m : Nat),
      ((l.map Prod.fst).zip (demote c n m l)).countP (creditP c) =
        l.countP (corP c) + min (l.countP (misP c)) (n - m)
  | [], m => by simp [demote]
  | (gc, hs) :: rest, m => by
    simp only [demote, List.map_cons]
    by_cases hmatch : gc = c ∧ hs = HintS.misplaced
    · rw [if_pos hmatch]
      simp only [List.zip_cons_cons, List.countP_cons, countP_credit_demote c n rest (m + 1)]
      have h2 : corP c (gc, hs) = false := by
        simp only [corP, decide_eq_false_iff_not]
        rintro ⟨-, h⟩
        rw [hmatch.2] at h
        exact HintS.noConfusion h
      have h3 : misP c (gc, hs) = true := by simp [misP, hmatch.1, hmatch.2]
      rw [h2, h3, show (if false = true then 1 else 0) = 0 from rfl,
        show (if true = true then 1 else 0) = 1 from rfl]
      by_cases hbudget : n < m + 1
      · rw [if_pos hbudget]
        have h1 : creditP c (gc, HintS.wrong) = false := by simp [creditP]
        rw [h1, show (if false = true then 1 else 0) = 0 from rfl]
        omega
      · rw [if_neg hbudget]
        have h1 : creditP c (gc, HintS.misplaced) = true := by simp [creditP, hmatch.1]
        rw [h1, show (if true = true then 1 else 0) = 1 from rfl]
        omega
    · rw [if_neg hmatch]
      simp only [List.zip_cons_cons, List.countP_cons, countP_credit_demote c n rest m]
      have hcm : creditP c (gc, hs) = corP c (gc, hs) := by
        by_cases hgc : gc = c
        · subst hgc
          cases hs with
          | correct => simp [creditP, corP]
          | misplaced => exact absurd ⟨rfl, rfl⟩ hmatch
          | wrong => simp [creditP, corP]
        · simp [creditP, corP, hgc]
      have hmis : misP c (gc, hs) = false := by
        simp only [misP, decide_eq_false_iff_not]
        exact hmatch
      rw [hcm, hmis, show (if false = true then 1 else 0) = 0 from rfl, Nat.add_zero]
      rcases Bool.eq_false_or_eq_true (corP c (gc, hs)) with h | h
      · rw [h, show (if true = true then 1 else 0) = 1 from rfl]
        omega
      · rw [h, show (if false = true then 1 else 0) = 0 from rfl]
        omega

/-! ### Locality of the correction passes

The correction for one repeated letter only reads and writes positions
holding that letter, so the folded passes can be analysed one letter at a
time against the first-pass hint. -/

/-- Agreement of two hints at all positions holding the letter c. -/
def AgreeOn (g : Word) (c : Char) (h h' : List HintS) : Prop :=
  ∀ i, g.get? i = some c → h.get? i = h'.get? i

theorem correct_count_eq (c : Char) (l : List (Char × HintS)) :
    correct_count c l = l.countP (corP c) := rfl

theorem countP_zip_congr {c : Char} (P : Char × HintS → Bool)
    (hP : ∀ q, P q = true → q.1 = c) :
    ∀ (g : Word) (h h' : List HintS), h.length = g.length → h'.length = g.length →
      AgreeOn g c h h' → (g.zip h).countP P = (g.zip h').countP P
  | [], h, h', hl, hl', _ => by
    rw [List.length_eq_zero.mp hl, List.length_eq_zero.mp hl']
  | gc :: gt, [], h', hl, hl', hagree => by simp at hl
  | gc :: gt, _ :: _, [], hl, hl', hagree => by simp at hl'
  | gc :: gt, hh :: ht, hh' :: ht', hl, hl', hagree => by
    simp only [List.length_cons, Nat.succ.injEq] at hl hl'
    have htail : AgreeOn gt c ht ht' := fun i hi => by
      simpa using hagree (i + 1) (by simpa using hi)
    simp only [List.zip_cons_cons, List.countP_cons,
      countP_zip_congr P hP gt ht ht' hl hl' htail]
    by_cases hgc : gc = c
    · obtain rfl : hh = hh' := by simpa using hagree 0 (by simpa using hgc)
      rfl
    · have h1 : P (gc, hh) = false := by
        cases hb : P (gc, hh)
        · rfl
        · exact absurd (hP _ hb) hgc
      have h2 : P (gc, hh') = false := by
        cases hb : P (gc, hh')
        · rfl
        · exact absurd (hP _ hb) hgc
      rw [h1, h2]

theorem demote_congr {c : Char} (n : Nat) :
    ∀ (g : Word) (h h' : List HintS) (m : Nat), h.length = g.length → h'.length = g.length →
      AgreeOn g c h h' → ∀ i, g.get? i = some c →
        (demote c n m (g.zip h)).get? i = (demote c n m (g.zip h')).get? i
  | [], _, _, _, _, _, _, i, hi => by simp at hi
  | gc :: gt, [], h', m, hl, hl', _, i, hi => by simp at hl
  | gc :: gt, _ :: _, [], m, hl, hl', _, i, hi => by simp at hl'
  | gc :: gt, hh :: ht, hh' :: ht', m, hl, hl', hagree, i, hi => by
    simp only [List.length_cons, Nat.succ.injEq] at hl hl'
    have htail : AgreeOn gt c ht ht' := fun j hj => by
      simpa using hagree (j + 1) (by simpa using hj)
    cases i with
    | zero =>
      obtain rfl : gc = c := by simpa using hi
      obtain rfl : hh = hh' := by simpa using hagree 0 (by simp)
      simp only [List.zip_cons_cons, demote]
      split
      · rfl
      · rfl
    | succ i =>
      have hi' : gt.get? i = some c := by simpa using hi
      simp only [List.zip_cons_cons, demote]
      by_cases hgc : gc = c
      · obtain rfl : hh = hh' := by simpa using hagree 0 (by simpa using hgc)
        split
        · simp only [List.get?_cons_succ]
          exact demote_congr n gt ht ht' (m + 1) hl hl' htail i hi'
        · simp only [List.get?_cons_succ]
          exact demote_congr n gt ht ht' m hl hl' htail i hi'
      · have hm1 : ¬ (gc = c ∧ hh = HintS.misplaced) := fun hq => hgc hq.1
        have hm2 : ¬ (gc = c ∧ hh' = HintS.misplaced) := fun hq => hgc hq.1
        rw [if_neg hm1, if_neg hm2]
        simp only [List.get?_cons_succ]
        exact demote_congr n gt ht ht' m hl hl' htail i hi'

theorem length_apply_correction {g a : Word} {hint : List HintS} (c : Char)
    (hlen : hint.length = g.length) : (apply_correction g a hint c).length = g.length := by
  unfold apply_correction
  split
  · rw [length_demote, List.length_zip, hlen, Nat.min_self]
  · exact hlen

theorem apply_correction_congr {g a : Word} {c : Char} {h h' : List HintS}
    (hl : h.length = g.length) (hl' : h'.length = g.length) (hagree : AgreeOn g c h h') :
    AgreeOn g c (apply_correction g a h c) (apply_correction g a h' c) := by
  unfold apply_correction
  split
  · have hcc : correct_count c (g.zip h) = correct_count c (g.zip h') := by
      rw [correct_count_eq, correct_count_eq]
      exact countP_zip_congr (corP c)
        (fun q hq => (of_decide_eq_true hq).1) g h h' hl hl' hagree
    intro i hi
    rw [hcc]
    exact demote_congr _ g h h' _ hl hl' hagree i hi
  · exact hagree

theorem get?_isSome_of_lt {α : Type} {l : List α} {i : Nat} (hil : i < l.length) :
    ∃ s, l.get? i = some s := by
  cases hh : l.get? i with
  | none => exact absurd (List.get?_eq_none.mp hh) (by omega)
  | some s => exact ⟨s, rfl⟩

theorem apply_correction_agree_other {g a : Word} {c c' : Char} {h : List HintS}
    (hl : h.length = g.length) (hne : c ≠ c') :
    ∀ i, g.get? i = some c → (apply_correction g a h c').get? i = h.get? i := by
  intro i hi
  unfold apply_correction
  split
  · have hilt : i < g.length := (List.get?_eq_some.mp hi).1
    have hilt' : i < h.length := by rw [hl]; exact hilt
    obtain ⟨s, hs⟩ := get?_isSome_of_lt hilt'
    rw [get?_demote_of_ne c' _ _ (get?_zip_of_get? hi hs) hne, hs]
  · rfl

theorem length_foldl_correction (g a : Word) :
    ∀ (cs : List Char) (hint : List HintS), hint.length = g.length →
      (cs.foldl (apply_correction g a) hint).length = g.length
  | [], hint, hl => hl
  | c :: cs, hint, hl =>
    length_foldl_correction g a cs _ (length_apply_correction c hl)

theorem foldl_correction_agree_notmem (g a : Word) {c : Char} :
    ∀ (cs : List Char), c ∉ cs → ∀ (hint : List HintS), hint.length = g.length →
      ∀ i, g.get? i = some c → (cs.foldl (apply_correction g a) hint).get? i = hint.get? i
  | [], _, hint, _, i, _ => rfl
  | c' :: cs, hmem, hint, hl, i, hi => by
    have hne : c ≠ c' := fun hq => hmem (hq ▸ List.mem_cons_self c' cs)
    have hnotmem : c ∉ cs := fun hq => hmem (List.mem_cons_of_mem c' hq)
    rw [List.foldl_cons,
      foldl_correction_agree_notmem g a cs hnotmem _ (length_apply_correction c' hl) i hi]
    exact apply_correction_agree_other hl hne i hi

theorem length_naive_hint {g a : Word} (hlen : g.length = a.length) :
    (naive_hint g a).length = g.length := by
  rw [naive_hint, List.length_zipWith, hlen, Nat.min_self]

theorem length_hint_core {g a : Word} (hlen : g.length = a.length) :
    (hint_core g a).length = g.length :=
  length_foldl_correction g a _ _ (length_naive_hint hlen)

theorem nodup_repeated_letters (g : Word) : (repeated_letters g).Nodup :=
  (nodup_pyDedup g).filter _

/-- Localisation of the encoder: at a position holding the letter c, the
final hint agrees with the single correction pass for c applied to the
first-pass hint (or with the first-pass hint itself when c is not a
repeated letter of the guess). -/
theorem hint_core_localised {g a : Word} (hlen : g.length = a.length) {c : Char} {i : Nat}
    (hi : g.get? i = some c) :
    (hint_core g a).get? i =
      (if c ∈ repeated_letters g then apply_correction g a (naive_hint g a) c
        else naive_hint g a).get? i := by
  have hl0 : (naive_hint g a).length = g.length := length_naive_hint hlen
  by_cases hc : c ∈ repeated_letters g
  · rw [if_pos hc]
    obtain ⟨s, t, hst⟩ := List.append_of_mem hc
    have hnd := nodup_repeated_letters g
    rw [hst] at hnd
    rw [List.nodup_append] at hnd
    obtain ⟨hnds, hndct, hdisj⟩ := hnd
    have hcs : c ∉ s := fun hq => hdisj hq (List.mem_cons_self c t)
    have hct : c ∉ t := (List.nodup_cons.mp hndct).1
    have hfold : hint_core g a =
        t.foldl (apply_correction g a)
          (apply_correction g a (s.foldl (apply_correction g a) (naive_hint g a)) c) := by
      rw [hint_core, hst, List.foldl_append, List.foldl_cons]
    set h1 := s.foldl (apply_correction g a) (naive_hint g a) with hh1
    have hl1 : h1.length = g.length := length_foldl_correction g a s _ hl0
    have hagree1 : AgreeOn g c h1 (naive_hint g a) := fun j hj =>
      foldl_correction_agree_notmem g a s hcs _ hl0 j hj
    have hagree2 := apply_correction_congr (a := a) hl1 hl0 hagree1
    rw [hfold,
      foldl_correction_agree_notmem g a t hct _ (length_apply_correction c hl1) i hi]
    exact hagree2 i hi
  · rw [if_neg hc]
    exact foldl_correction_agree_notmem g a _ hc _ hl0 i hi

/-! ### First-pass facts -/

theorem get?_naive_hint {g a : Word} (hlen : g.length = a.length) {i : Nat} {gc : Char}
    (hg : g.get? i = some gc) :
    ∃ ac, a.get? i = some ac ∧ (naive_hint g a).get? i = some (naiveF a gc ac) := by
  have hilt : i < g.length := (List.get?_eq_some.mp hg).1
  have hilt' : i < a.length := by omega
  obtain ⟨ac, hac⟩ := get?_isSome_of_lt hilt'
  refine ⟨ac, hac, ?_⟩
  rw [naive_hint, get?_zipWith, hg, hac]
  rfl

theorem naiveF_correct_iff {a : Word} {gc ac : Char} :
    naiveF a gc ac = HintS.correct ↔ gc = ac := by
  unfold naiveF
  split
  · next h => simp [h]
  · next h =>
    split
    · simpa using h
    · simpa using h

theorem naiveF_misplaced {a : Word} {gc ac : Char}
    (h : naiveF a gc ac = HintS.misplaced) : gc ≠ ac ∧ gc ∈ a := by
  unfold naiveF at h
  split at h
  · exact absurd h (by simp)
  · next hne =>
    split at h
    · next hmem => exact ⟨hne, hmem⟩
    · exact absurd h (by simp)

theorem naiveF_ne_wrong_of_mem {a : Word} {gc ac : Char} (hmem : gc ∈ a) :
    naiveF a gc ac ≠ HintS.wrong := by
  intro hw
  unfold naiveF at hw
  split at hw
  · exact HintS.noConfusion hw
  · exact HintS.noConfusion hw

theorem naiveF_wrong_of_not_mem {a : Word} {gc ac : Char} (hmem : gc ∉ a)
    (hne : gc ≠ ac) : naiveF a gc ac = HintS.wrong := by
  unfold naiveF
  rw [if_neg hne, if_neg hmem]

/-- The number of exact matches of c never exceeds the number of
occurrences of c in the answer. -/
theorem countP_corP_naive_le (c : Char) (A : Word) :
    ∀ (g a : Word), (g.zip (List.zipWith (naiveF A) g a)).countP (corP c) ≤ a.count c
  | [], a => by simp
  | gc :: gt, [] => by simp
  | gc :: gt, ac :: at' => by
    simp only [List.zipWith_cons_cons, List.zip_cons_cons, List.countP_cons, List.count_cons]
    have hrec := countP_corP_naive_le c A gt at'
    by_cases hcor : corP c (gc, naiveF A gc ac) = true
    · obtain ⟨hgc, hcc⟩ := of_decide_eq_true hcor
      have hgc' : gc = c := hgc
      have hac : gc = ac := naiveF_correct_iff.mp hcc
      have hb : (ac == c) = true := by
        rw [beq_iff_eq, ← hac, hgc']
      rw [hcor, hb, show (if true = true then 1 else 0) = 1 from rfl]
      omega
    · rw [Bool.not_eq_true] at hcor
      rw [hcor, show (if false = true then 1 else 0) = 0 from rfl]
      rcases Bool.eq_false_or_eq_true (ac == c) with hb | hb
      · rw [hb, show (if true = true then 1 else 0) = 1 from rfl]
        omega
      · rw [hb, show (if false = true then 1 else 0) = 0 from rfl]
        omega

theorem get?_zip_eq_some {α β : Type} {l₁ : List α} {l₂ : List β} {i : Nat} {p : α × β}
    (h : (l₁.zip l₂).get? i = some p) : l₁.get? i = some p.1 ∧ l₂.get? i = some p.2 := by
  rw [get?_zip] at h
  cases hg : l₁.get? i with
  | none => rw [hg] at h; exact absurd h (by simp)
  | some x =>
    cases ha : l₂.get? i with
    | none => rw [hg, ha] at h; exact absurd h (by simp)
    | some y =>
      rw [hg, ha] at h
      have hp : p = (x, y) := by simpa using h.symm
      subst hp
      exact ⟨by simpa using hg, by simpa using ha⟩

theorem get?_naive_hint_eq_some {g a : Word} {s : HintS} {i : Nat}
    (h : (naive_hint g a).get? i = some s) :
    ∃ gc ac, g.get? i = some gc ∧ a.get? i = some ac ∧ s = naiveF a gc ac := by
  rw [naive_hint, get?_zipWith] at h
  cases hg : g.get? i with
  | none => rw [hg] at h; exact absurd h (by simp)
  | some gc =>
    cases ha : a.get? i with
    | none => rw [hg, ha] at h; exact absurd h (by simp)
    | some ac =>
      rw [hg, ha] at h
      exact ⟨gc, ac, rfl, rfl, by simpa using h.symm⟩

/-! ### Per-hint facts about the full encoder -/

theorem apply_correction_correct_iff {g a : Word} {hint : List HintS} {c : Char}
    (hl : hint.length = g.length) (i : Nat) :
    ((apply_correction g a hint c).get? i = some HintS.correct ↔
      hint.get? i = some HintS.correct) := by
  unfold apply_correction
  split
  · by_cases hil : i < g.length
    · obtain ⟨gi, hgi⟩ := get?_isSome_of_lt hil
      have hil' : i < hint.length := by omega
      obtain ⟨si, hsi⟩ := get?_isSome_of_lt hil'
      rw [get?_demote_correct_iff c _ _ (get?_zip_of_get? hgi hsi), hsi]
      simp
    · have h1 : (demote c (a.count c) (correct_count c (g.zip hint)) (g.zip hint)).get? i
          = none := by
        rw [List.get?_eq_none, length_demote, List.length_zip]
        omega
      have h2 : hint.get? i = none := by
        rw [List.get?_eq_none]
        omega
      rw [h1, h2]
  · exact Iff.rfl

theorem foldl_correction_correct_iff (g a : Word) :
    ∀ (cs : List Char) (hint : List HintS), hint.length = g.length → ∀ i,
      ((cs.foldl (apply_correction g a) hint).get? i = some HintS.correct ↔
        hint.get? i = some HintS.correct)
  | [], hint, _, i => Iff.rfl
  | c :: cs, hint, hl, i => by
    rw [List.foldl_cons]
    rw [foldl_correction_correct_iff g a cs _ (length_apply_correction c hl) i]
    exact apply_correction_correct_iff hl i

/-- CORRECT positions of the final hint are exactly the exact matches. -/
theorem hint_core_correct_iff {g a : Word} (hlen : g.length = a.length) (i : Nat) :
    ((hint_core g a).get? i = some HintS.correct ↔
      ∃ ch, g.get? i = some ch ∧ a.get? i = some ch) := by
  rw [hint_core,
    foldl_correction_correct_iff g a _ _ (length_naive_hint hlen) i]
  constructor
  · intro h
    obtain ⟨gc, ac, hg, ha, hs⟩ := get?_naive_hint_eq_some h
    obtain rfl : gc = ac := naiveF_correct_iff.mp hs.symm
    exact ⟨gc, hg, ha⟩
  · rintro ⟨ch, hg, ha⟩
    obtain ⟨ac, hac, hnv⟩ := get?_naive_hint hlen hg
    obtain rfl : ac = ch := by
      have := hac.symm.trans ha
      simpa using this
    rw [hnv, naiveF_correct_iff.mpr rfl]

theorem apply_correction_misplaced_inv {g a : Word} {hint : List HintS} {c : Char}
    (hl : hint.length = g.length) {i : Nat}
    (h : (apply_correction g a hint c).get? i = some HintS.misplaced) :
    hint.get? i = some HintS.misplaced := by
  unfold apply_correction at h
  split at h
  · by_cases hil : i < g.length
    · obtain ⟨gi, hgi⟩ := get?_isSome_of_lt hil
      have hil' : i < hint.length := by omega
      obtain ⟨si, hsi⟩ := get?_isSome_of_lt hil'
      have h2 : si = HintS.misplaced := get?_demote_misplaced c _ _ (get?_zip_of_get? hgi hsi) h
      rw [hsi, h2]
    · have h1 : (demote c (a.count c) (correct_count c (g.zip hint)) (g.zip hint)).get? i
          = none := by
        rw [List.get?_eq_none, length_demote, List.length_zip]
        omega
      rw [h1] at h
      exact absurd h (by simp)
  · exact h

theorem foldl_correction_misplaced_inv (g a : Word) :
    ∀ (cs : List Char) (hint : List HintS), hint.length = g.length → ∀ i,
      (cs.foldl (apply_correction g a) hint).get? i = some HintS.misplaced →
        hint.get? i = some HintS.misplaced
  | [], hint, _, i, h => h
  | c :: cs, hint, hl, i, h => by
    rw [List.foldl_cons] at h
    exact apply_correction_misplaced_inv hl
      (foldl_correction_misplaced_inv g a cs _ (length_apply_correction c hl) i h)

/-- A MISPLACED position of the final hint holds a letter of the answer at
the wrong position. -/
theorem hint_core_misplaced {g a : Word} (hlen : g.length = a.length) {i : Nat}
    (h : (hint_core g a).get? i = some HintS.misplaced) :
    ∃ gc, g.get? i = some gc ∧ gc ∈ a ∧ ¬ a.get? i = some gc := by
  rw [hint_core] at h
  have hnv := foldl_correction_misplaced_inv g a _ _ (length_naive_hint hlen) i h
  obtain ⟨gc, ac, hg, ha, hs⟩ := get?_naive_hint_eq_some hnv
  obtain ⟨hne, hmem⟩ := naiveF_misplaced hs.symm
  refine ⟨gc, hg, hmem, fun hq => ?_⟩
  have : ac = gc := by simpa using ha.symm.trans hq
  exact hne this.symm

/-- Credited-occurrence existence: a WRONG mark on a letter of the answer
can only be a demotion, and some other position of the same letter is then
still credited (CORRECT or MISPLACED) in the same hint. -/
theorem hint_core_credited {g a : Word} (hlen : g.length = a.length) {c : Char} {i : Nat}
    (hi : g.get? i = some c) (hca : c ∈ a)
    (hw : (hint_core g a).get? i = some HintS.wrong) :
    ∃ j, g.get? j = some c ∧
      ((hint_core g a).get? j = some HintS.correct ∨
        (hint_core g a).get? j = some HintS.misplaced) := by
  have hl0 : (naive_hint g a).length = g.length := length_naive_hint hlen
  have hloc := hint_core_localised hlen hi
  by_cases hreps : c ∈ repeated_letters g
  · rw [if_pos hreps] at hloc
    rw [hloc] at hw
    unfold apply_correction at hw
    rw [if_pos hca] at hw
    have hil : i < g.length := (List.get?_eq_some.mp hi).1
    obtain ⟨s0, hs0⟩ := get?_isSome_of_lt (show i < (naive_hint g a).length by omega)
    obtain ⟨gc0, ac0, hg0, ha0, hsv⟩ := get?_naive_hint_eq_some hs0
    obtain rfl : c = gc0 := by simpa using hi.symm.trans hg0
    have hz := get?_zip_of_get? hi hs0
    have hs0ne : s0 ≠ HintS.wrong := hsv ▸ naiveF_ne_wrong_of_mem hca
    obtain ⟨-, hs0m, -⟩ := get?_demote_wrong c _ _ hz hs0ne hw
    have hs0m' : s0 = HintS.misplaced := hs0m
    by_cases hm : 0 < correct_count c (g.zip (naive_hint g a))
    · rw [correct_count_eq] at hm
      obtain ⟨q, hqmem, hq⟩ := List.countP_pos_iff.mp hm
      obtain ⟨hqc, hqcor⟩ := of_decide_eq_true hq
      obtain ⟨jn, hjn⟩ := List.mem_iff_get?.mp hqmem
      obtain ⟨hgj, hhj⟩ := get?_zip_eq_some hjn
      rw [hqc] at hgj
      rw [hqcor] at hhj
      obtain ⟨gc', ac', hg', ha', hs'⟩ := get?_naive_hint_eq_some hhj
      obtain rfl : c = gc' := by simpa using hgj.symm.trans hg'
      obtain rfl : c = ac' := naiveF_correct_iff.mp hs'.symm
      exact ⟨jn, hgj, Or.inl ((hint_core_correct_iff hlen jn).mpr ⟨c, hgj, ha'⟩)⟩
    · have hm0 : correct_count c (g.zip (naive_hint g a)) = 0 := by omega
      have hn1 : 0 + 1 ≤ a.count c := by
        have := List.count_pos_iff.mpr hca
        omega
      have hmem0 : (c, HintS.misplaced) ∈ g.zip (naive_hint g a) := by
        rw [hs0m'] at hz
        exact List.get?_mem hz
      obtain ⟨j, hjin, hjout⟩ := demote_first_kept c (a.count c) _ 0 hn1 hmem0
      obtain ⟨hgj, hhj⟩ := get?_zip_eq_some hjin
      refine ⟨j, by simpa using hgj, Or.inr ?_⟩
      rw [hint_core_localised hlen (by simpa using hgj), if_pos hreps]
      unfold apply_correction
      rw [if_pos hca, hm0]
      exact hjout
  · rw [if_neg hreps] at hloc
    rw [hloc] at hw
    obtain ⟨gc0, ac0, hg0, ha0, hsv⟩ := get?_naive_hint_eq_some hw
    obtain rfl : c = gc0 := by simpa using hi.symm.trans hg0
    exact absurd hsv.symm (naiveF_ne_wrong_of_mem hca)

/-- Cap exactness: whenever some occurrence of c in the guess is marked
WRONG while the hint is honest, the number of credited (CORRECT or
MISPLACED) occurrences of c equals the number of occurrences of c in the
answer. This is the invariant behind the max_occurrences constraint. -/
theorem hint_core_cap {g a : Word} (hlen : g.length = a.length) {c : Char}
    (hex : ∃ i, g.get? i = some c ∧ (hint_core g a).get? i = some HintS.wrong) :
    (g.zip (hint_core g a)).countP (creditP c) = a.count c := by
  obtain ⟨i, hgi, hwi⟩ := hex
  have hl0 : (naive_hint g a).length = g.length := length_naive_hint hlen
  have hlf : (hint_core g a).length = g.length := length_hint_core hlen
  by_cases hca : c ∈ a
  · have hreps : c ∈ repeated_letters g := by
      by_contra hreps
      have hloc := hint_core_localised hlen hgi
      rw [if_neg hreps] at hloc
      rw [hloc] at hwi
      obtain ⟨gc0, ac0, hg0, ha0, hsv⟩ := get?_naive_hint_eq_some hwi
      obtain rfl : c = gc0 := by simpa using hgi.symm.trans hg0
      exact absurd hsv.symm (naiveF_ne_wrong_of_mem hca)
    have hlAC : (apply_correction g a (naive_hint g a) c).length = g.length :=
      length_apply_correction c hl0
    have hagree : AgreeOn g c (hint_core g a) (apply_correction g a (naive_hint g a) c) :=
      fun j hj => by rw [hint_core_localised hlen hj, if_pos hreps]
    rw [countP_zip_congr (creditP c) (fun q hq => (of_decide_eq_true hq).1) g _ _
      hlf hlAC hagree]
    unfold apply_correction
    rw [if_pos hca]
    have hmapfst : (g.zip (naive_hint g a)).map Prod.fst = g :=
      List.map_fst_zip g _ (by omega)
    rw [show g.zip (demote c (a.count c)
          (correct_count c (g.zip (naive_hint g a))) (g.zip (naive_hint g a)))
        = ((g.zip (naive_hint g a)).map Prod.fst).zip (demote c (a.count c)
          (correct_count c (g.zip (naive_hint g a))) (g.zip (naive_hint g a))) from by
      rw [hmapfst]]
    rw [countP_credit_demote]
    have hcc : correct_count c (g.zip (naive_hint g a))
        = (g.zip (naive_hint g a)).countP (corP c) := correct_count_eq c _
    have hmn : correct_count c (g.zip (naive_hint g a)) ≤ a.count c := by
      rw [correct_count_eq]
      exact countP_corP_naive_le c a g a
    have hil : i < g.length := (List.get?_eq_some.mp hgi).1
    obtain ⟨s0, hs0⟩ := get?_isSome_of_lt (show i < (naive_hint g a).length by omega)
    have hz := get?_zip_of_get? hgi hs0
    have hACi : (apply_correction g a (naive_hint g a) c).get? i = some HintS.wrong := by
      rw [← hagree i hgi]
      exact hwi
    rw [show apply_correction g a (naive_hint g a) c
        = (if c ∈ a then demote c (a.count c)
            (correct_count c (g.zip (naive_hint g a))) (g.zip (naive_hint g a))
          else naive_hint g a) from rfl, if_pos hca] at hACi
    obtain ⟨gc0, ac0, hg0, ha0, hsv⟩ := get?_naive_hint_eq_some hs0
    obtain rfl : c = gc0 := by simpa using hgi.symm.trans hg0
    have hs0ne : s0 ≠ HintS.wrong := hsv ▸ naiveF_ne_wrong_of_mem hca
    obtain ⟨-, hs0m, hbudget⟩ := get?_demote_wrong c _ _ hz hs0ne hACi
    have hs0m' : s0 = HintS.misplaced := hs0m
    have htake : ((g.zip (naive_hint g a)).take (i + 1)).countP (misP c)
        = ((g.zip (naive_hint g a)).take i).countP (misP c) + 1 := by
      rw [List.take_succ, List.countP_append, ← List.get?_eq_getElem?, hz, hs0m']
      have : misP c (c, HintS.misplaced) = true := by simp [misP]
      simp [this]
    have htotal : ((g.zip (naive_hint g a)).take (i + 1)).countP (misP c)
        ≤ (g.zip (naive_hint g a)).countP (misP c) :=
      (List.take_sublist _ _).countP_le _
    omega
  · have hz : a.count c = 0 := List.count_eq_zero.mpr hca
    rw [hz]
    rw [List.countP_eq_zero]
    rintro ⟨qc, qs⟩ hq hcred
    obtain ⟨hqc, hqw⟩ := of_decide_eq_true hcred
    have hqc' : c = qc := hqc.symm
    subst hqc'
    obtain ⟨j, hj⟩ := List.mem_iff_get?.mp hq
    obtain ⟨hgj, hfj⟩ := get?_zip_eq_some hj
    have hsimp : (if c ∈ repeated_letters g then apply_correction g a (naive_hint g a) c
        else naive_hint g a) = naive_hint g a := by
      split
      · unfold apply_correction
        rw [if_neg hca]
      · rfl
    have hloc := hint_core_localised hlen (show g.get? j = some c from hgj)
    rw [hsimp] at hloc
    rw [hloc] at hfj
    obtain ⟨gc0, ac0, hg0, ha0, hsv⟩ := get?_naive_hint_eq_some hfj
    obtain rfl : c = gc0 := by simpa using hg0.symm.trans hgj |>.symm
    have hne : c ≠ ac0 := by
      rintro rfl
      exact hca (List.get?_mem ha0)
    exact hqw (show qs = HintS.wrong from hsv.trans (naiveF_wrong_of_not_mem hca hne))

/-! ### Structural lemmas about the aggregator -/

theorem dget_eq_none_iff {κ ν : Type} [DecidableEq κ] {ch : κ} :
    ∀ {d : List (κ × ν)}, dget ch d = none ↔ ch ∉ d.map Prod.fst
  | [] => by simp [dget]
  | (k, v) :: rest => by
    by_cases hk : k = ch
    · subst hk
      simp [dget]
    · simp only [dget, if_neg hk, List.map_cons, List.mem_cons, dget_eq_none_iff]
      constructor
      · rintro h (hq | hq)
        · exact hk hq.symm
        · exact h hq
      · intro h
        exact fun hq => h (Or.inr hq)

theorem agg_positions_correct_origin :
    ∀ (l : List (Char × HintS)) (j : Nat) (acc : Info × List (Char × Nat) × List Char)
      (p : Nat) (v : Char),
      dget p ((agg_positions j l acc).1).correct = some v →
      dget p acc.1.correct = some v ∨ ∃ k, l.get? k = some (v, HintS.correct) ∧ p = j + k
  | [], _, _, _, _, h => Or.inl h
  | (letter, st) :: rest, j, acc, p, v, h => by
    rw [agg_positions] at h
    rcases agg_positions_correct_origin rest (j + 1) _ p v h with h' | ⟨k, hk, rfl⟩
    · cases st with
      | correct =>
        simp only [agg_step] at h'
        by_cases hp : p = j
        · subst hp
          rw [dget_dupsert_self] at h'
          obtain rfl : letter = v := by simpa using h'
          exact Or.inr ⟨0, by simp, by omega⟩
        · rw [dget_dupsert_ne hp] at h'
          exact Or.inl h'
      | misplaced =>
        simp only [agg_step] at h'
        exact Or.inl h'
      | wrong =>
        simp only [agg_step] at h'
        exact Or.inl h'
    · exact Or.inr ⟨k + 1, by simpa using hk, by omega⟩

theorem agg_positions_wrongpos_origin :
    ∀ (l : List (Char × HintS)) (j : Nat) (acc : Info × List (Char × Nat) × List Char)
      (q : Char × Nat),
      q ∈ ((agg_positions j l acc).1).wrong_position →
      q ∈ acc.1.wrong_position ∨ ∃ k, l.get? k = some (q.1, HintS.misplaced) ∧ q.2 = j + k
  | [], _, _, _, h => Or.inl h
  | (letter, st) :: rest, j, acc, q, h => by
    rw [agg_positions] at h
    rcases agg_positions_wrongpos_origin rest (j + 1) _ q h with h' | ⟨k, hk, hq⟩
    · cases st with
      | correct =>
        simp only [agg_step] at h'
        exact Or.inl h'
      | misplaced =>
        simp only [agg_step] at h'
        rcases mem_sinsert.mp h' with hq | hq
        · subst hq
          exact Or.inr ⟨0, by simp, by omega⟩
        · exact Or.inl hq
      | wrong =>
        simp only [agg_step] at h'
        exact Or.inl h'
    · exact Or.inr ⟨k + 1, by simpa using hk, by omega⟩

theorem agg_positions_notin_origin :
    ∀ (l : List (Char × HintS)) (j : Nat) (acc : Info × List (Char × Nat) × List Char)
      (ch : Char),
      ch ∈ ((agg_positions j l acc).1).not_in_word →
      ch ∈ acc.1.not_in_word ∨ (ch, HintS.wrong) ∈ l
  | [], _, _, _, h => Or.inl h
  | (letter, st) :: rest, j, acc, ch, h => by
    rw [agg_positions] at h
    rcases agg_positions_notin_origin rest (j + 1) _ ch h with h' | hk
    · cases st with
      | correct =>
        simp only [agg_step] at h'
        exact Or.inl h'
      | misplaced =>
        simp only [agg_step] at h'
        exact Or.inl h'
      | wrong =>
        simp only [agg_step] at h'
        rcases mem_sinsert.mp h' with hq | hq
        · subst hq
          exact Or.inr (List.mem_cons_self _ _)
        · exact Or.inl hq
    · exact Or.inr (List.mem_cons_of_mem _ hk)

theorem agg_positions_correct_untouched :
    ∀ (l : List (Char × HintS)) (j : Nat) (acc : Info × List (Char × Nat) × List Char)
      (p : Nat), p < j →
      dget p ((agg_positions j l acc).1).correct = dget p acc.1.correct
  | [], _, _, _, _ => rfl
  | (letter, st) :: rest, j, acc, p, hp => by
    rw [agg_positions]
    rw [agg_positions_correct_untouched rest (j + 1) _ p (by omega)]
    cases st with
    | correct =>
      simp only [agg_step]
      exact dget_dupsert_ne (by omega)
    | misplaced => rfl
    | wrong => rfl

theorem agg_positions_correct_at :
    ∀ (l : List (Char × HintS)) (j : Nat) (acc : Info × List (Char × Nat) × List Char)
      (k : Nat) (letter : Char), l.get? k = some (letter, HintS.correct) →
      dget (j + k) ((agg_positions j l acc).1).correct = some letter
  | [], _, _, k, _, h => by simp at h
  | (l0, st) :: rest, j, acc, 0, letter, h => by
    obtain ⟨rfl, rfl⟩ : l0 = letter ∧ st = HintS.correct := by
      have := Option.some.inj h
      exact ⟨congrArg Prod.fst this, congrArg Prod.snd this⟩
    rw [agg_positions, agg_positions_correct_untouched rest (j + 1) _ (j + 0) (by omega)]
    simp only [agg_step, Nat.add_zero]
    exact dget_dupsert_self
  | (l0, st) :: rest, j, acc, k + 1, letter, h => by
    rw [agg_positions]
    have := agg_positions_correct_at rest (j + 1) (agg_step j l0 st acc) k letter
      (by simpa using h)
    rwa [show j + 1 + k = j + (k + 1) by omega] at this

theorem agg_positions_wrongpos_mono :
    ∀ (l : List (Char × HintS)) (j : Nat) (acc : Info × List (Char × Nat) × List Char)
      (q : Char × Nat), q ∈ acc.1.wrong_position →
      q ∈ ((agg_positions j l acc).1).wrong_position
  | [], _, _, _, h => h
  | (letter, st) :: rest, j, acc, q, h => by
    rw [agg_positions]
    refine agg_positions_wrongpos_mono rest (j + 1) _ q ?_
    cases st with
    | correct => exact h
    | misplaced =>
      simp only [agg_step]
      exact subset_sinsert h
    | wrong => exact h

theorem agg_positions_notin_mono :
    ∀ (l : List (Char × HintS)) (j : Nat) (acc : Info × List (Char × Nat) × List Char)
      (ch : Char), ch ∈ acc.1.not_in_word →
      ch ∈ ((agg_positions j l acc).1).not_in_word
  | [], _, _, _, h => h
  | (letter, st) :: rest, j, acc, ch, h => by
    rw [agg_positions]
    refine agg_positions_notin_mono rest (j + 1) _ ch ?_
    cases st with
    | correct => exact h
    | misplaced => exact h
    | wrong =>
      simp only [agg_step]
      exact subset_sinsert h

theorem agg_positions_wrongpos_at :
    ∀ (l : List (Char × HintS)) (j : Nat) (acc : Info × List (Char × Nat) × List Char)
      (k : Nat) (letter : Char), l.get? k = some (letter, HintS.misplaced) →
      (letter, j + k) ∈ ((agg_positions j l acc).1).wrong_position
  | [], _, _, k, _, h => by simp at h
  | (l0, st) :: rest, j, acc, 0, letter, h => by
    obtain ⟨rfl, rfl⟩ : l0 = letter ∧ st = HintS.misplaced := by
      have := Option.some.inj h
      exact ⟨congrArg Prod.fst this, congrArg Prod.snd this⟩
    rw [agg_positions]
    refine agg_positions_wrongpos_mono rest (j + 1) _ _ ?_
    simp only [agg_step, Nat.add_zero]
    exact mem_sinsert.mpr (Or.inl rfl)
  | (l0, st) :: rest, j, acc, k + 1, letter, h => by
    rw [agg_positions]
    have := agg_positions_wrongpos_at rest (j + 1) (agg_step j l0 st acc) k letter
      (by simpa using h)
    rwa [show j + 1 + k = j + (k + 1) by omega] at this

theorem agg_positions_correct_key_mono :
    ∀ (l : List (Char × HintS)) (j : Nat) (acc : Info × List (Char × Nat) × List Char)
      (p : Nat), (dget p acc.1.correct).isSome →
      (dget p ((agg_positions j l acc).1).correct).isSome
  | [], _, _, _, h => h
  | (letter, st) :: rest, j, acc, p, h => by
    rw [agg_positions]
    refine agg_positions_correct_key_mono rest (j + 1) _ p ?_
    cases st with
    | correct =>
      simp only [agg_step]
      exact isSome_dget_dupsert h
    | misplaced => exact h
    | wrong => exact h

theorem agg_positions_correct_nodup :
    ∀ (l : List (Char × HintS)) (j : Nat) (acc : Info × List (Char × Nat) × List Char),
      NodupKeys acc.1.correct → NodupKeys ((agg_positions j l acc).1).correct
  | [], _, _, h => h
  | (letter, st) :: rest, j, acc, h => by
    rw [agg_positions]
    refine agg_positions_correct_nodup rest (j + 1) _ ?_
    cases st with
    | correct =>
      simp only [agg_step]
      exact nodupKeys_dupsert h
    | misplaced => exact h
    | wrong => exact h

theorem agg_positions_include_nodup :
    ∀ (l : List (Char × HintS)) (j : Nat) (acc : Info × List (Char × Nat) × List Char),
      NodupKeys acc.2.1 → NodupKeys ((agg_positions j l acc).2.1)
  | [], _, _, h => h
  | (letter, st) :: rest, j, acc, h => by
    rw [agg_positions]
    refine agg_positions_include_nodup rest (j + 1) _ ?_
    cases st with
    | correct =>
      simp only [agg_step]
      exact nodupKeys_dupsert (nodupKeys_dupsert h)
    | misplaced =>
      simp only [agg_step]
      exact nodupKeys_dupsert (nodupKeys_dupsert h)
    | wrong =>
      simp only [agg_step]
      exact nodupKeys_dupsert h

theorem agg_positions_maxocc_eq :
    ∀ (l : List (Char × HintS)) (j : Nat) (acc : Info × List (Char × Nat) × List Char),
      ((agg_positions j l acc).1).max_occurrences = acc.1.max_occurrences
  | [], _, _ => rfl
  | (letter, st) :: rest, j, acc => by
    rw [agg_positions, agg_positions_maxocc_eq rest (j + 1) _]
    cases st with
    | correct => rfl
    | misplaced => rfl
    | wrong => rfl

theorem agg_positions_include_value :
    ∀ (l : List (Char × HintS)) (j : Nat) (acc : Info × List (Char × Nat) × List Char)
      (ch : Char),
      dgetD ch ((agg_positions j l acc).2.1) 0 = dgetD ch acc.2.1 0 + l.countP (creditP ch)
  | [], _, _, _ => by simp [agg_positions]
  | (letter, st) :: rest, j, acc, ch => by
    rw [agg_positions, agg_positions_include_value rest (j + 1) _ ch, List.countP_cons]
    by_cases hch : letter = ch
    · subst hch
      cases st with
      | correct =>
        have hcr : creditP letter (letter, HintS.correct) = true := by simp [creditP]
        rw [hcr, show (if true = true then 1 else 0) = 1 from rfl]
        simp only [agg_step, dgetD, dget_dupsert_self, Option.getD_some]
        omega
      | misplaced =>
        have hcr : creditP letter (letter, HintS.misplaced) = true := by simp [creditP]
        rw [hcr, show (if true = true then 1 else 0) = 1 from rfl]
        simp only [agg_step, dgetD, dget_dupsert_self, Option.getD_some]
        omega
      | wrong =>
        have hcr : creditP letter (letter, HintS.wrong) = false := by simp [creditP]
        rw [hcr, show (if false = true then 1 else 0) = 0 from rfl]
        simp only [agg_step, dgetD, dget_dupsert_self, Option.getD_some]
        omega
    · have hcr : creditP ch (letter, st) = false := by
        simp only [creditP, decide_eq_false_iff_not]
        rintro ⟨hq, -⟩
        exact hch hq
      rw [hcr, show (if false = true then 1 else 0) = 0 from rfl]
      have hne : ch ≠ letter := fun hq => hch hq.symm
      cases st with
      | correct =>
        simp only [agg_step, dgetD, dget_dupsert_ne hne]
        omega
      | misplaced =>
        simp only [agg_step, dgetD, dget_dupsert_ne hne]
        omega
      | wrong =>
        simp only [agg_step, dgetD, dget_dupsert_ne hne]
        omega

theorem agg_positions_include_keys :
    ∀ (l : List (Char × HintS)) (j : Nat) (acc : Info × List (Char × Nat) × List Char)
      (ch : Char),
      ((dget ch ((agg_positions j l acc).2.1)).isSome ↔
        (dget ch acc.2.1).isSome ∨ ∃ st, (ch, st) ∈ l)
  | [], _, _, ch => by simp [agg_positions]
  | (letter, st) :: rest, j, acc, ch => by
    rw [agg_positions, agg_positions_include_keys rest (j + 1) _ ch]
    by_cases hch : letter = ch
    · subst hch
      constructor
      · intro h
        exact Or.inr ⟨st, List.mem_cons_self _ _⟩
      · intro h
        left
        cases st with
        | correct =>
          simp only [agg_step]
          exact isSome_dget_dupsert (by simp [dget_dupsert_self])
        | misplaced =>
          simp only [agg_step]
          exact isSome_dget_dupsert (by simp [dget_dupsert_self])
        | wrong =>
          simp only [agg_step]
          simp [dget_dupsert_self]
    · have hne : ch ≠ letter := fun hq => hch hq.symm
      have hstep : dget ch (agg_step j letter st acc).2.1 = dget ch acc.2.1 := by
        cases st with
        | correct =>
          simp only [agg_step]
          rw [dget_dupsert_ne hne, dget_dupsert_ne hne]
        | misplaced =>
          simp only [agg_step]
          rw [dget_dupsert_ne hne, dget_dupsert_ne hne]
        | wrong =>
          simp only [agg_step]
          rw [dget_dupsert_ne hne]
      rw [hstep]
      constructor
      · rintro (h | ⟨st', hst'⟩)
        · exact Or.inl h
        · exact Or.inr ⟨st', List.mem_cons_of_mem _ hst'⟩
      · rintro (h | ⟨st', hst'⟩)
        · exact Or.inl h
        · rcases List.mem_cons.mp hst' with hq | hq
          · exact absurd (congrArg Prod.fst hq) (by simpa using hne)
          · exact Or.inr ⟨st', hq⟩

theorem agg_positions_exclude_iff :
    ∀ (l : List (Char × HintS)) (j : Nat) (acc : Info × List (Char × Nat) × List Char)
      (ch : Char),
      (ch ∈ (agg_positions j l acc).2.2 ↔ ch ∈ acc.2.2 ∨ (ch, HintS.wrong) ∈ l)
  | [], _, _, ch => by simp [agg_positions]
  | (letter, st) :: rest, j, acc, ch => by
    rw [agg_positions, agg_positions_exclude_iff rest (j + 1) _ ch]
    cases st with
    | correct =>
      simp only [agg_step, List.mem_cons]
      constructor
      · rintro (h | h)
        · exact Or.inl h
        · exact Or.inr (Or.inr h)
      · rintro (h | h | h)
        · exact Or.inl h
        · exact absurd (congrArg Prod.snd h) (by simp)
        · exact Or.inr h
    | misplaced =>
      simp only [agg_step, List.mem_cons]
      constructor
      · rintro (h | h)
        · exact Or.inl h
        · exact Or.inr (Or.inr h)
      · rintro (h | h | h)
        · exact Or.inl h
        · exact absurd (congrArg Prod.snd h) (by simp)
        · exact Or.inr h
    | wrong =>
      simp only [agg_step, List.mem_cons]
      rw [mem_sinsert]
      constructor
      · rintro ((h | h) | h)
        · exact Or.inr (Or.inl (by rw [h]))
        · exact Or.inl h
        · exact Or.inr (Or.inr h)
      · rintro (h | h | h)
        · exact Or.inl (Or.inr h)
        · exact Or.inl (Or.inl (congrArg Prod.fst h))
        · exact Or.inr h

/-! ### The cap pass and process_guess characterisations -/

theorem agg_caps_cons (exc : List Char) (p : Char × Nat) (rest : List (Char × Nat))
    (info : Info) : agg_caps exc (p :: rest) info = agg_caps exc rest (cap_step exc info p) :=
  rfl

theorem cap_step_correct_eq (exc : List Char) (info : Info) (p : Char × Nat) :
    (cap_step exc info p).correct = info.correct := by
  unfold cap_step
  split <;> rfl

theorem cap_step_wrongpos_eq (exc : List Char) (info : Info) (p : Char × Nat) :
    (cap_step exc info p).wrong_position = info.wrong_position := by
  unfold cap_step
  split <;> rfl

theorem cap_step_notin_eq (exc : List Char) (info : Info) (p : Char × Nat) :
    (cap_step exc info p).not_in_word = info.not_in_word := by
  unfold cap_step
  split <;> rfl

theorem agg_caps_correct_eq (exc : List Char) :
    ∀ (inc : List (Char × Nat)) (info : Info), (agg_caps exc inc info).correct = info.correct
  | [], _ => rfl
  | p :: rest, info => by
    rw [agg_caps_cons, agg_caps_correct_eq exc rest _, cap_step_correct_eq]

theorem agg_caps_wrongpos_eq (exc : List Char) :
    ∀ (inc : List (Char × Nat)) (info : Info),
      (agg_caps exc inc info).wrong_position = info.wrong_position
  | [], _ => rfl
  | p :: rest, info => by
    rw [agg_caps_cons, agg_caps_wrongpos_eq exc rest _, cap_step_wrongpos_eq]

theorem agg_caps_notin_eq (exc : List Char) :
    ∀ (inc : List (Char × Nat)) (info : Info),
      (agg_caps exc inc info).not_in_word = info.not_in_word
  | [], _ => rfl
  | p :: rest, info => by
    rw [agg_caps_cons, agg_caps_notin_eq exc rest _, cap_step_notin_eq]

theorem agg_caps_maxocc_nodup (exc : List Char) :
    ∀ (inc : List (Char × Nat)) (info : Info), NodupKeys info.max_occurrences →
      NodupKeys (agg_caps exc inc info).max_occurrences
  | [], _, h => h
  | p :: rest, info, h => by
    rw [agg_caps_cons]
    refine agg_caps_maxocc_nodup exc rest _ ?_
    unfold cap_step
    split
    · exact nodupKeys_dupsert h
    · exact h

theorem agg_caps_maxocc_skip (exc : List Char) {ch : Char} :
    ∀ (inc : List (Char × Nat)) (info : Info), ch ∉ inc.map Prod.fst →
      dget ch (agg_caps exc inc info).max_occurrences = dget ch info.max_occurrences
  | [], _, _ => rfl
  | (k, v) :: rest, info, hmem => by
    have hk : ch ≠ k := fun hq => hmem (by simp [hq])
    have hrest : ch ∉ rest.map Prod.fst := fun hq => hmem (by simp [hq])
    rw [agg_caps_cons, agg_caps_maxocc_skip exc rest _ hrest]
    unfold cap_step
    split
    · exact dget_dupsert_ne hk
    · rfl

theorem agg_caps_maxocc_of_key (exc : List Char) {ch : Char} {n : Nat} :
    ∀ (inc : List (Char × Nat)) (info : Info), NodupKeys inc → dget ch inc = some n →
      dget ch (agg_caps exc inc info).max_occurrences =
        if 0 < n ∧ ch ∈ exc then some n else dget ch info.max_occurrences
  | [], _, _, hget => by simp [dget] at hget
  | (k, v) :: rest, info, hnd, hget => by
    simp only [NodupKeys, List.map_cons, List.nodup_cons] at hnd
    obtain ⟨hk', hrest⟩ := hnd
    rw [agg_caps_cons]
    by_cases hk : k = ch
    · subst hk
      obtain rfl : n = v := (by simpa [dget] using hget : v = n).symm
      rw [agg_caps_maxocc_skip exc rest _ hk']
      unfold cap_step
      split
      · exact dget_dupsert_self
      · rfl
    · have hget' : dget ch rest = some n := by
        simpa [dget, hk] using hget
      rw [agg_caps_maxocc_of_key exc rest _ hrest hget']
      split
      · rfl
      · unfold cap_step
        split
        · exact dget_dupsert_ne (fun hq => hk hq.symm)
        · rfl

theorem process_guess_eq (info : Info) (g : Word) (hint : List HintS) :
    process_guess info g hint =
      agg_caps (agg_positions 0 (g.zip hint) (info, [], [])).2.2
        (agg_positions 0 (g.zip hint) (info, [], [])).2.1
        (agg_positions 0 (g.zip hint) (info, [], [])).1 := rfl

theorem process_guess_correct_origin {info : Info} {g : Word} {hint : List HintS}
    {p : Nat} {v : Char} (h : dget p (process_guess info g hint).correct = some v) :
    dget p info.correct = some v ∨ (g.zip hint).get? p = some (v, HintS.correct) := by
  rw [process_guess_eq, agg_caps_correct_eq] at h
  rcases agg_positions_correct_origin _ 0 _ p v h with h' | ⟨k, hk, hp⟩
  · exact Or.inl h'
  · obtain rfl : p = k := by omega
    exact Or.inr hk

theorem process_guess_wrongpos_origin {info : Info} {g : Word} {hint : List HintS}
    {q : Char × Nat} (h : q ∈ (process_guess info g hint).wrong_position) :
    q ∈ info.wrong_position ∨ (g.zip hint).get? q.2 = some (q.1, HintS.misplaced) := by
  rw [process_guess_eq, agg_caps_wrongpos_eq] at h
  rcases agg_positions_wrongpos_origin _ 0 _ q h with h' | ⟨k, hk, hq⟩
  · exact Or.inl h'
  · rw [show q.2 = k by omega]
    exact Or.inr hk

theorem process_guess_notin_origin {info : Info} {g : Word} {hint : List HintS}
    {ch : Char} (h : ch ∈ (process_guess info g hint).not_in_word) :
    ch ∈ info.not_in_word ∨ (ch, HintS.wrong) ∈ g.zip hint := by
  rw [process_guess_eq, agg_caps_notin_eq] at h
  exact agg_positions_notin_origin _ 0 _ ch h

theorem process_guess_correct_at {info : Info} {g : Word} {hint : List HintS}
    {k : Nat} {v : Char} (h : (g.zip hint).get? k = some (v, HintS.correct)) :
    dget k (process_guess info g hint).correct = some v := by
  rw [process_guess_eq, agg_caps_correct_eq]
  have := agg_positions_correct_at (g.zip hint) 0 (info, [], []) k v h
  simpa using this

theorem process_guess_wrongpos_at {info : Info} {g : Word} {hint : List HintS}
    {k : Nat} {v : Char} (h : (g.zip hint).get? k = some (v, HintS.misplaced)) :
    (v, k) ∈ (process_guess info g hint).wrong_position := by
  rw [process_guess_eq, agg_caps_wrongpos_eq]
  have := agg_positions_wrongpos_at (g.zip hint) 0 (info, [], []) k v h
  simpa using this

theorem process_guess_wrongpos_mono {info : Info} {g : Word} {hint : List HintS}
    {q : Char × Nat} (h : q ∈ info.wrong_position) :
    q ∈ (process_guess info g hint).wrong_position := by
  rw [process_guess_eq, agg_caps_wrongpos_eq]
  exact agg_positions_wrongpos_mono _ 0 _ q h

theorem process_guess_notin_mono {info : Info} {g : Word} {hint : List HintS}
    {ch : Char} (h : ch ∈ info.not_in_word) :
    ch ∈ (process_guess info g hint).not_in_word := by
  rw [process_guess_eq, agg_caps_notin_eq]
  exact agg_positions_notin_mono _ 0 _ ch h

theorem process_guess_correct_key_mono {info : Info} {g : Word} {hint : List HintS}
    {p : Nat} (h : (dget p info.correct).isSome) :
    (dget p (process_guess info g hint).correct).isSome := by
  rw [process_guess_eq, agg_caps_correct_eq]
  exact agg_positions_correct_key_mono _ 0 _ p h

theorem process_guess_maxocc_dget (info : Info) (g : Word) (hint : List HintS) (ch : Char) :
    dget ch (process_guess info g hint).max_occurrences =
      if 0 < (g.zip hint).countP (creditP ch) ∧ (ch, HintS.wrong) ∈ g.zip hint
      then some ((g.zip hint).countP (creditP ch))
      else dget ch info.max_occurrences := by
  rw [process_guess_eq]
  have hnodup : NodupKeys (agg_positions 0 (g.zip hint) (info, [], [])).2.1 :=
    agg_positions_include_nodup _ 0 _ (by simp [NodupKeys])
  have hexc : ch ∈ (agg_positions 0 (g.zip hint) (info, [], [])).2.2 ↔
      (ch, HintS.wrong) ∈ g.zip hint := by
    rw [agg_positions_exclude_iff]
    simp
  cases hkey : dget ch (agg_positions 0 (g.zip hint) (info, [], [])).2.1 with
  | none =>
    have hnomem : ¬ ∃ st, (ch, st) ∈ g.zip hint := by
      intro hst
      have := (agg_positions_include_keys (g.zip hint) 0 (info, [], []) ch).mpr
        (Or.inr hst)
      rw [hkey] at this
      simp at this
    rw [agg_caps_maxocc_skip _ _ _ (dget_eq_none_iff.mp hkey), agg_positions_maxocc_eq]
    rw [if_neg (fun hq => hnomem ⟨HintS.wrong, hq.2⟩)]
  | some n =>
    have hval : n = (g.zip hint).countP (creditP ch) := by
      have hv := agg_positions_include_value (g.zip hint) 0 (info, [], []) ch
      rw [dgetD, dgetD, hkey] at hv
      simpa [dget] using hv
    rw [agg_caps_maxocc_of_key _ _ _ hnodup hkey, agg_positions_maxocc_eq, ← hval]
    by_cases hcond : 0 < n ∧ (ch, HintS.wrong) ∈ g.zip hint
    · rw [if_pos ⟨hcond.1, hexc.mpr hcond.2⟩, if_pos hcond]
    · rw [if_neg (fun hq => hcond ⟨hq.1, hexc.mp hq.2⟩), if_neg hcond]

/-! ### Well-formedness and honesty invariants of the aggregate -/

/-- The two dict components have duplicate-free keys. -/
def InfoWF (info : Info) : Prop :=
  NodupKeys info.correct ∧ NodupKeys info.max_occurrences

theorem process_guess_wf {info : Info} (g : Word) (hint : List HintS) (h : InfoWF info) :
    InfoWF (process_guess info g hint) := by
  constructor
  · rw [process_guess_eq, agg_caps_correct_eq]
    exact agg_positions_correct_nodup _ 0 _ h.1
  · rw [process_guess_eq]
    refine agg_caps_maxocc_nodup _ _ _ ?_
    rw [agg_positions_maxocc_eq]
    exact h.2

theorem foldl_process_wf :
    ∀ (l : List (Word × List HintS)) (info : Info), InfoWF info →
      InfoWF (l.foldl (fun i p => process_guess i p.1 p.2) info)
  | [], _, h => h
  | p :: rest, info, h =>
    foldl_process_wf rest _ (process_guess_wf p.1 p.2 h)

theorem get_info_from_hints_wf (guesses : List Word) (hints : List (List HintS)) :
    InfoWF (get_info_from_hints guesses hints) :=
  foldl_process_wf _ _ (by constructor <;> simp [Info.empty, NodupKeys])

/-- Soundness of an aggregate with respect to the true answer: every
constraint it contains is satisfied by the answer, the absent-letter set
only bans letters genuinely absent (or letters also recorded as present),
and every occurrence cap equals the answer's occurrence count. -/
def HonestInv (a : Word) (info : Info) : Prop :=
  (∀ p v, dget p info.correct = some v → a.get? p = some v) ∧
  (∀ q ∈ info.wrong_position, q.1 ∈ a ∧ ¬ a.get? q.2 = some q.1) ∧
  (∀ ch ∈ info.not_in_word, ch ∈ a →
    (∃ p, dget p info.correct = some ch) ∨ (∃ p, (ch, p) ∈ info.wrong_position)) ∧
  (∀ ch n, dget ch info.max_occurrences = some n → a.count ch = n)

theorem honestInv_empty (a : Word) : HonestInv a Info.empty := by
  refine ⟨?_, ?_, ?_, ?_⟩
  · intro p v h
    simp [Info.empty, dget] at h
  · intro q hq
    simp [Info.empty] at hq
  · intro ch hch
    simp [Info.empty] at hch
  · intro ch n h
    simp [Info.empty, dget] at h

theorem process_guess_honest {a g : Word} (hlen : g.length = a.length)
    {info : Info} (hinv : HonestInv a info) :
    HonestInv a (process_guess info g (hint_core g a)) := by
  obtain ⟨hcorr, hwpos, hnin, hmocc⟩ := hinv
  have hcorr' : ∀ p v, dget p (process_guess info g (hint_core g a)).correct = some v →
      a.get? p = some v := by
    intro p v h
    rcases process_guess_correct_origin h with h' | h'
    · exact hcorr p v h'
    · obtain ⟨hg, hh⟩ := get?_zip_eq_some h'
      obtain ⟨ch, hgc, hac⟩ := (hint_core_correct_iff hlen p).mp hh
      obtain rfl : v = ch := by simpa using hg.symm.trans hgc
      exact hac
  refine ⟨hcorr', ?_, ?_, ?_⟩
  · intro q hq
    rcases process_guess_wrongpos_origin hq with h' | h'
    · exact hwpos q h'
    · obtain ⟨hg, hh⟩ := get?_zip_eq_some h'
      obtain ⟨gc, hgc, hmem, hne⟩ := hint_core_misplaced hlen hh
      obtain rfl : q.1 = gc := by simpa using hg.symm.trans hgc
      exact ⟨hmem, hne⟩
  · intro ch hch hcha
    rcases process_guess_notin_origin hch with h' | h'
    · rcases hnin ch h' hcha with ⟨p, hp⟩ | ⟨p, hp⟩
      · have hsome : (dget p (process_guess info g (hint_core g a)).correct).isSome :=
          process_guess_correct_key_mono (by rw [hp]; rfl)
        obtain ⟨v', hv'⟩ := Option.isSome_iff_exists.mp hsome
        obtain rfl : v' = ch := by
          have h1 := hcorr' p v' hv'
          have h2 := hcorr p ch hp
          simpa using h1.symm.trans h2
        exact Or.inl ⟨p, hv'⟩
      · exact Or.inr ⟨p, process_guess_wrongpos_mono hp⟩
    · obtain ⟨k, hk⟩ := List.mem_iff_get?.mp h'
      obtain ⟨hg, hh⟩ := get?_zip_eq_some hk
      obtain ⟨j, hgj, hcred⟩ := hint_core_credited hlen hg hcha hh
      have hjlt : j < g.length := (List.get?_eq_some.mp hgj).1
      have hjlt' : j < (hint_core g a).length := by
        rw [length_hint_core hlen]
        exact hjlt
      rcases hcred with hc | hc
      · exact Or.inl ⟨j, process_guess_correct_at (get?_zip_of_get? hgj hc)⟩
      · exact Or.inr ⟨j, process_guess_wrongpos_at (get?_zip_of_get? hgj hc)⟩
  · intro ch n h
    rw [process_guess_maxocc_dget] at h
    split at h
    · next hcond =>
      obtain ⟨k, hk⟩ := List.mem_iff_get?.mp hcond.2
      obtain ⟨hg, hh⟩ := get?_zip_eq_some hk
      have hcap := hint_core_cap hlen ⟨k, hg, hh⟩
      obtain rfl : n = (g.zip (hint_core g a)).countP (creditP ch) :=
        Option.some.inj h.symm
      exact hcap.symm
    · exact hmocc ch n h

theorem foldl_process_honest {a : Word} :
    ∀ (gs : List Word) (info : Info), HonestInv a info →
      (∀ g ∈ gs, g.length = a.length) →
      HonestInv a ((gs.map (fun g => (g, hint_core g a))).foldl
        (fun i p => process_guess i p.1 p.2) info)
  | [], _, h, _ => h
  | g :: rest, info, h, hlen => by
    rw [List.map_cons, List.foldl_cons]
    exact foldl_process_honest rest _
      (process_guess_honest (hlen g (List.mem_cons_self _ _)) h)
      (fun g' hg' => hlen g' (List.mem_cons_of_mem _ hg'))

theorem zip_map_self {α β : Type} (f : α → β) :
    ∀ (l : List α), l.zip (l.map f) = l.map (fun x => (x, f x))
  | [] => rfl
  | a :: l => by
    simp only [List.map_cons, List.zip_cons_cons, zip_map_self f l]

theorem get_info_from_hints_honest {a : Word} (gs : List Word)
    (hlen : ∀ g ∈ gs, g.length = a.length) :
    HonestInv a (get_info_from_hints gs (gs.map (fun g => hint_core g a))) := by
  rw [get_info_from_hints, zip_map_self]
  exact foldl_process_honest gs Info.empty (honestInv_empty a) hlen

/-! ### Round-trip soundness (claim C1) -/

theorem mem_filter_words_iff {w : Word} {word_list : List Word} {info : Info} :
    w ∈ filter_words_from_info word_list info ↔ w ∈ word_list ∧ word_fits info w := by
  rw [filter_words_from_info, List.mem_filter, decide_eq_true_eq]

/-- The true answer satisfies every constraint of a well-formed honest
aggregate. -/
theorem answer_fits {a : Word} {info : Info} (hwf : InfoWF info)
    (hinv : HonestInv a info) : word_fits info a := by
  obtain ⟨hcorr, hwpos, hnin, hmocc⟩ := hinv
  refine ⟨?_, ?_, ?_, ?_, ?_⟩
  · intro p hp
    exact hcorr p.1 p.2 (dget_of_mem hwf.1 hp)
  · intro q hq
    exact (hwpos q hq).1
  · intro q hq
    exact (hwpos q hq).2
  · intro ch hch hahl hmem
    rcases hnin ch hch hmem with ⟨p, hp⟩ | ⟨p, hp⟩
    · exact hahl (List.mem_append_left _
        (List.mem_map.mpr ⟨(p, ch), mem_of_dget hp, rfl⟩))
    · exact hahl (List.mem_append_right _
        (List.mem_map.mpr ⟨(ch, p), hp, rfl⟩))
  · intro q hq
    rw [hmocc q.1 q.2 (dget_of_mem hwf.2 hq)]

theorem get_hint_eq_core {g a : Word} (hg : pyUpper g = g) (ha : pyUpper a = a) :
    get_hint_from_guess g a = hint_core g a := by
  rw [get_hint_from_guess, hg, ha]

/-- Claim C1 (round-trip soundness): for every answer word in the word list
and every sequence of 5-letter guesses, filtering the word list with the
aggregate of the hints the encoder produces for those guesses against the
answer always retains the answer. Uppercase hypotheses reflect that every
word handled by a session is .upper()-normalised on load or entry. -/
theorem round_trip_soundness (answer : Word) (word_list : List Word)
    (guesses : List Word) (hansmem : answer ∈ word_list) (hanslen : answer.length = 5)
    (hglen : ∀ g ∈ guesses, g.length = 5) (hup : pyUpper answer = answer)
    (hgup : ∀ g ∈ guesses, pyUpper g = g) :
    answer ∈ filter_words_from_info word_list
      (get_info_from_hints guesses
        (guesses.map (fun g => get_hint_from_guess g answer))) := by
  have hmap : guesses.map (fun g => get_hint_from_guess g answer)
      = guesses.map (fun g => hint_core g answer) :=
    List.map_congr_left (fun g hg => get_hint_eq_core (hgup g hg) hup)
  rw [hmap, mem_filter_words_iff]
  refine ⟨hansmem, answer_fits (get_info_from_hints_wf _ _) ?_⟩
  exact get_info_from_hints_honest guesses
    (fun g hg => by rw [hglen g hg, hanslen])

/-- Witness for C1 at a concrete session: answer CHEST in a two-word list,
after guessing CRANE. -/
theorem round_trip_soundness_witness :
    (['C','H','E','S','T'] ∈ [['C','H','E','S','T'], ['C','R','A','N','E']] ∧
      (['C','H','E','S','T'] : Word).length = 5) ∧
    ['C','H','E','S','T'] ∈ filter_words_from_info
      [['C','H','E','S','T'], ['C','R','A','N','E']]
      (get_info_from_hints [['C','R','A','N','E']]
        [get_hint_from_guess ['C','R','A','N','E'] ['C','H','E','S','T']]) := by
  refine ⟨⟨by decide, by decide⟩, ?_⟩
  have h := round_trip_soundness ['C','H','E','S','T']
    [['C','H','E','S','T'], ['C','R','A','N','E']] [['C','R','A','N','E']]
    (by decide) (by decide) (by decide) (by decide) (by decide)
  simpa using h

/-! ### Repeated-letter rule (claim C2) -/

theorem hint_core_eq_naive_at {g a : Word} (hlen : g.length = a.length) {c : Char} {i : Nat}
    (hca : c ∉ a) (hi : g.get? i = some c) :
    (hint_core g a).get? i = (naive_hint g a).get? i := by
  rw [hint_core_localised hlen hi]
  split
  · unfold apply_correction
    rw [if_neg hca]
  · rfl

theorem hint_core_credit_zero {g a : Word} (hlen : g.length = a.length) {c : Char}
    (hca : c ∉ a) : (g.zip (hint_core g a)).countP (creditP c) = 0 := by
  rw [List.countP_eq_zero]
  rintro ⟨qc, qs⟩ hq hcred
  obtain ⟨hqc, hqw⟩ := of_decide_eq_true hcred
  have hqc' : c = qc := hqc.symm
  subst hqc'
  obtain ⟨j, hj⟩ := List.mem_iff_get?.mp hq
  obtain ⟨hgj, hfj⟩ := get?_zip_eq_some hj
  rw [hint_core_eq_naive_at hlen hca (by simpa using hgj)] at hfj
  obtain ⟨gc0, ac0, hg0, ha0, hsv⟩ := get?_naive_hint_eq_some hfj
  obtain rfl : c = gc0 := by simpa using hg0.symm.trans hgj |>.symm
  have hne : c ≠ ac0 := by
    rintro rfl
    exact hca (List.get?_mem ha0)
  exact hqw (show qs = HintS.wrong from hsv.trans (naiveF_wrong_of_not_mem hca hne))

/-- Credit bound: a letter is never credited more often than it occurs in
the answer, whenever it occurs more often in the guess than in the answer. -/
theorem hint_core_credit_le {g a : Word} (hlen : g.length = a.length) (c : Char)
    (hcnt : a.count c < g.count c) :
    (g.zip (hint_core g a)).countP (creditP c) ≤ a.count c := by
  by_cases hca : c ∈ a
  · have hmemg : c ∈ g := by
      have := List.count_pos_iff.mpr hca
      exact List.count_pos_iff.mp (by omega)
    have hreps : c ∈ repeated_letters g := by
      rw [repeated_letters, List.mem_filter]
      refine ⟨mem_pyDedup.mpr hmemg, ?_⟩
      have := List.count_pos_iff.mpr hca
      simp only [decide_eq_true_eq]
      omega
    have hl0 : (naive_hint g a).length = g.length := length_naive_hint hlen
    have hlf : (hint_core g a).length = g.length := length_hint_core hlen
    have hlAC : (apply_correction g a (naive_hint g a) c).length = g.length :=
      length_apply_correction c hl0
    have hagree : AgreeOn g c (hint_core g a) (apply_correction g a (naive_hint g a) c) :=
      fun j hj => by rw [hint_core_localised hlen hj, if_pos hreps]
    rw [countP_zip_congr (creditP c) (fun q hq => (of_decide_eq_true hq).1) g _ _
      hlf hlAC hagree]
    unfold apply_correction
    rw [if_pos hca]
    have hmapfst : (g.zip (naive_hint g a)).map Prod.fst = g :=
      List.map_fst_zip g _ (by omega)
    rw [show g.zip (demote c (a.count c)
          (correct_count c (g.zip (naive_hint g a))) (g.zip (naive_hint g a)))
        = ((g.zip (naive_hint g a)).map Prod.fst).zip (demote c (a.count c)
          (correct_count c (g.zip (naive_hint g a))) (g.zip (naive_hint g a))) from by
      rw [hmapfst]]
    rw [countP_credit_demote]
    have hcc : correct_count c (g.zip (naive_hint g a))
        = (g.zip (naive_hint g a)).countP (corP c) := correct_count_eq c _
    have hmn : correct_count c (g.zip (naive_hint g a)) ≤ a.count c := by
      rw [correct_count_eq]
      exact countP_corP_naive_le c a g a
    omega
  · rw [hint_core_credit_zero hlen hca]
    omega

/-- Left-to-right priority: a kept MISPLACED occurrence of a letter is never
preceded by a demoted occurrence of the same letter. -/
theorem hint_core_left_to_right {g a : Word} (hlen : g.length = a.length) {c : Char}
    {i j : Nat} (hij : i < j) (hgi : g.get? i = some c) (hgj : g.get? j = some c)
    (hjm : (hint_core g a).get? j = some HintS.misplaced)
    (hiw : (hint_core g a).get? i = some HintS.wrong) : False := by
  obtain ⟨gc, hgc, hmem, -⟩ := hint_core_misplaced hlen hjm
  obtain rfl : c = gc := by simpa using hgj.symm.trans hgc
  by_cases hreps : c ∈ repeated_letters g
  · have hloci := hint_core_localised hlen hgi
    have hlocj := hint_core_localised hlen hgj
    rw [if_pos hreps] at hloci hlocj
    rw [hloci] at hiw
    rw [hlocj] at hjm
    unfold apply_correction at hiw hjm
    rw [if_pos hmem] at hiw hjm
    have hil : i < g.length := (List.get?_eq_some.mp hgi).1
    have hjl : j < g.length := (List.get?_eq_some.mp hgj).1
    obtain ⟨si, hsi⟩ := get?_isSome_of_lt (show i < (naive_hint g a).length by
      rw [length_naive_hint hlen]; omega)
    obtain ⟨sj, hsj⟩ := get?_isSome_of_lt (show j < (naive_hint g a).length by
      rw [length_naive_hint hlen]; omega)
    have hzi := get?_zip_of_get? hgi hsi
    have hzj := get?_zip_of_get? hgj hsj
    rw [get?_demote c _ _ _ _ _ hzi] at hiw
    rw [get?_demote c _ _ _ _ _ hzj] at hjm
    have hsiv := Option.some.inj hiw
    have hsjv := Option.some.inj hjm
    have hsi_ne : si ≠ HintS.wrong := by
      obtain ⟨gc0, ac0, hg0, ha0, hsv⟩ := get?_naive_hint_eq_some hsi
      obtain rfl : c = gc0 := by simpa using hgi.symm.trans hg0
      exact hsv ▸ naiveF_ne_wrong_of_mem hmem
    by_cases hmi : (c, si).1 = c ∧ (c, si).2 = HintS.misplaced
    · rw [if_pos hmi] at hsiv
      by_cases hmj : (c, sj).1 = c ∧ (c, sj).2 = HintS.misplaced
      · rw [if_pos hmj] at hsjv
        have hdemi : a.count c < correct_count c (g.zip (naive_hint g a)) +
            ((g.zip (naive_hint g a)).take i).countP (misP c) + 1 := by
          by_contra hle
          rw [if_neg hle] at hsiv
          exact HintS.noConfusion hsiv
        have hkeptj : ¬ a.count c < correct_count c (g.zip (naive_hint g a)) +
            ((g.zip (naive_hint g a)).take j).countP (misP c) + 1 := by
          intro hlt
          rw [if_pos hlt] at hsjv
          exact HintS.noConfusion hsjv
        have hmono : ((g.zip (naive_hint g a)).take i).countP (misP c)
            ≤ ((g.zip (naive_hint g a)).take j).countP (misP c) := by
          have hsub : ((g.zip (naive_hint g a)).take i).Sublist
              ((g.zip (naive_hint g a)).take j) := by
            rw [show (g.zip (naive_hint g a)).take i
              = ((g.zip (naive_hint g a)).take j).take i from by
                rw [List.take_take, Nat.min_eq_left (by omega)]]
            exact List.take_sublist _ _
          exact hsub.countP_le _
        omega
      · rw [if_neg hmj] at hsjv
        exact hmj ⟨rfl, hsjv⟩
    · exact hmi ⟨rfl, by
        rw [if_neg hmi] at hsiv
        exact absurd hsiv hsi_ne⟩
  · have hloci := hint_core_localised hlen hgi
    rw [if_neg hreps] at hloci
    rw [hloci] at hiw
    obtain ⟨gc0, ac0, hg0, ha0, hsv⟩ := get?_naive_hint_eq_some hiw
    obtain rfl : c = gc0 := by simpa using hgi.symm.trans hg0
    exact absurd hsv.symm (naiveF_ne_wrong_of_mem hmem)

/-- Claim C2 (repeated-letter rule): when a letter occurs more often in the
guess than in the answer, the encoder credits it (CORRECT or MISPLACED) at
most count-in-answer times; exact-position matches are exactly the CORRECT
marks, and kept MISPLACED occurrences precede demoted ones left-to-right;
in particular KEEPS against ABBEY encodes to WRONG, MISPLACED, WRONG,
WRONG, WRONG. -/
theorem repeated_letter_rule :
    (∀ (g a : Word) (c : Char), g.length = 5 → a.length = 5 →
      pyUpper g = g → pyUpper a = a → a.count c < g.count c →
      ((g.zip (get_hint_from_guess g a)).countP (creditP c) ≤ a.count c ∧
        (∀ i, (get_hint_from_guess g a).get? i = some HintS.correct ↔
          ∃ ch, g.get? i = some ch ∧ a.get? i = some ch) ∧
        (∀ i j, i < j → g.get? i = some c → g.get? j = some c →
          (get_hint_from_guess g a).get? j = some HintS.misplaced →
          ¬ (get_hint_from_guess g a).get? i = some HintS.wrong))) ∧
    get_hint_from_guess ['K','E','E','P','S'] ['A','B','B','E','Y'] =
      [HintS.wrong, HintS.misplaced, HintS.wrong, HintS.wrong, HintS.wrong] := by
  constructor
  · intro g a c hg5 ha5 hgup haup hcnt
    have hlen : g.length = a.length := by omega
    rw [get_hint_eq_core hgup haup]
    exact ⟨hint_core_credit_le hlen c hcnt,
      fun i => hint_core_correct_iff hlen i,
      fun i j hij hgi hgj hjm hiw =>
        hint_core_left_to_right hlen hij hgi hgj hjm hiw⟩
  · decide

/-- Witness for C2 at the concrete input of the claim: guess KEEPS, answer
ABBEY, repeated letter E. -/
theorem repeated_letter_rule_witness :
    ((['A','B','B','E','Y'] : Word).count 'E' < (['K','E','E','P','S'] : Word).count 'E') ∧
    ((['K','E','E','P','S'] : Word).zip
        (get_hint_from_guess ['K','E','E','P','S'] ['A','B','B','E','Y'])).countP
      (creditP 'E') ≤ (['A','B','B','E','Y'] : Word).count 'E' := by
  refine ⟨by decide, ?_⟩
  have h := (repeated_letter_rule.1 ['K','E','E','P','S'] ['A','B','B','E','Y'] 'E'
    (by decide) (by decide) (by decide) (by decide) (by decide)).1
  exact h

/-! ### Monotonicity of the candidate pool (claim C3) -/

/-- Within one honest session, any word satisfying the aggregate extended
with one more guess also satisfies the previous aggregate: no constraint is
ever relaxed by an honest hint. -/
theorem word_fits_mono {a g : Word} (hlen : g.length = a.length) {info : Info}
    (hwf : InfoWF info) (hinv : HonestInv a info) {w : Word}
    (hfit : word_fits (process_guess info g (hint_core g a)) w) : word_fits info w := by
  have hwf' := process_guess_wf g (hint_core g a) hwf
  have hinv' := process_guess_honest hlen hinv
  obtain ⟨hfc, hfw1, hfw2, hfn, hfm⟩ := hfit
  refine ⟨?_, ?_, ?_, ?_, ?_⟩
  · intro p hp
    have hold : dget p.1 info.correct = some p.2 := dget_of_mem hwf.1 hp
    have hsome : (dget p.1 (process_guess info g (hint_core g a)).correct).isSome :=
      process_guess_correct_key_mono (by rw [hold]; rfl)
    obtain ⟨v', hv'⟩ := Option.isSome_iff_exists.mp hsome
    obtain rfl : v' = p.2 := by
      have h1 := hinv'.1 p.1 v' hv'
      have h2 := hinv.1 p.1 p.2 hold
      simpa using h1.symm.trans h2
    exact hfc (p.1, p.2) (mem_of_dget hv')
  · intro q hq
    exact hfw1 q (process_guess_wrongpos_mono hq)
  · intro q hq
    exact hfw2 q (process_guess_wrongpos_mono hq)
  · intro ch hch hahl
    by_cases hcha : ch ∈ a
    · exfalso
      rcases hinv.2.2.1 ch hch hcha with ⟨p, hp⟩ | ⟨p, hp⟩
      · exact hahl (List.mem_append_left _
          (List.mem_map.mpr ⟨(p, ch), mem_of_dget hp, rfl⟩))
      · exact hahl (List.mem_append_right _
          (List.mem_map.mpr ⟨(ch, p), hp, rfl⟩))
    · have hahl' : ch ∉ (process_guess info g (hint_core g a)).correct.map Prod.snd ++
          (process_guess info g (hint_core g a)).wrong_position.map Prod.fst := by
        intro hmem
        rcases List.mem_append.mp hmem with hmem | hmem
        · obtain ⟨⟨p, v⟩, hpv, hv⟩ := List.mem_map.mp hmem
          obtain rfl : ch = v := hv.symm
          have := hinv'.1 p ch (dget_of_mem hwf'.1 hpv)
          exact hcha (List.get?_mem this)
        · obtain ⟨⟨v, p⟩, hpv, hv⟩ := List.mem_map.mp hmem
          obtain rfl : ch = v := hv.symm
          exact hcha (hinv'.2.1 (ch, p) hpv).1
      exact hfn ch (process_guess_notin_mono hch) hahl'
  · intro q hq
    have hold : dget q.1 info.max_occurrences = some q.2 := dget_of_mem hwf.2 hq
    have hcount : a.count q.1 = q.2 := hinv.2.2.2 q.1 q.2 hold
    have hnew : ∃ n', dget q.1 (process_guess info g (hint_core g a)).max_occurrences
        = some n' := by
      rw [process_guess_maxocc_dget]
      split
      · exact ⟨_, rfl⟩
      · exact ⟨q.2, hold⟩
    obtain ⟨n', hn'⟩ := hnew
    obtain rfl : n' = q.2 := by
      have h1 := hinv'.2.2.2 q.1 n' hn'
      omega
    exact hfm (q.1, q.2) (mem_of_dget hn')

theorem length_filter_mono {wl : List Word} {p q : Word → Bool}
    (h : ∀ w ∈ wl, p w = true → q w = true) :
    (wl.filter p).length ≤ (wl.filter q).length := by
  rw [← List.countP_eq_length_filter, ← List.countP_eq_length_filter]
  exact List.countP_mono_left h

theorem get_info_append (a : Word) (guesses : List Word) (g : Word) :
    get_info_from_hints (guesses ++ [g])
        ((guesses ++ [g]).map (fun x => hint_core x a)) =
      process_guess (get_info_from_hints guesses
        (guesses.map (fun x => hint_core x a))) g (hint_core g a) := by
  rw [get_info_from_hints, get_info_from_hints, zip_map_self, zip_map_self,
    List.map_append, List.foldl_append]
  rfl

/-- Claim C3 (monotonicity): within a session, the candidate pool computed
after one additional guess is never larger than the pool before it. -/
theorem candidate_pool_monotone (answer : Word) (word_list : List Word)
    (guesses : List Word) (g : Word) (hanslen : answer.length = 5)
    (hglen : ∀ x ∈ guesses ++ [g], x.length = 5) (hup : pyUpper answer = answer)
    (hgup : ∀ x ∈ guesses ++ [g], pyUpper x = x) :
    (possible_words word_list (guesses ++ [g])
        ((guesses ++ [g]).map (fun x => get_hint_from_guess x answer))).length ≤
      (possible_words word_list guesses
        (guesses.map (fun x => get_hint_from_guess x answer))).length := by
  have hmap2 : (guesses ++ [g]).map (fun x => get_hint_from_guess x answer)
      = (guesses ++ [g]).map (fun x => hint_core x answer) :=
    List.map_congr_left (fun x hx => get_hint_eq_core (hgup x hx) hup)
  have hmap1 : guesses.map (fun x => get_hint_from_guess x answer)
      = guesses.map (fun x => hint_core x answer) :=
    List.map_congr_left (fun x hx =>
      get_hint_eq_core (hgup x (List.mem_append_left _ hx)) hup)
  rw [possible_words, possible_words, hmap1, hmap2, get_info_append,
    filter_words_from_info, filter_words_from_info]
  refine length_filter_mono (fun w _ hw => ?_)
  rw [decide_eq_true_eq] at hw ⊢
  have hglen' : g.length = answer.length := by
    rw [hglen g (List.mem_append_right _ (List.mem_cons_self _ _)), hanslen]
  refine word_fits_mono hglen' (get_info_from_hints_wf _ _) ?_ hw
  exact get_info_from_hints_honest guesses (fun x hx => by
    rw [hglen x (List.mem_append_left _ hx), hanslen])

/-- Witness for C3 at a concrete session: answer CHEST, history CRANE,
extra guess PIOUS. -/
theorem candidate_pool_monotone_witness :
    ((['C','H','E','S','T'] : Word).length = 5) ∧
    (possible_words [['C','H','E','S','T'], ['C','R','A','N','E'], ['P','I','O','U','S']]
        ([['C','R','A','N','E']] ++ [['P','I','O','U','S']])
        (([['C','R','A','N','E']] ++ [['P','I','O','U','S']]).map
          (fun x => get_hint_from_guess x ['C','H','E','S','T']))).length ≤
      (possible_words [['C','H','E','S','T'], ['C','R','A','N','E'], ['P','I','O','U','S']]
        [['C','R','A','N','E']]
        ([['C','R','A','N','E']].map
          (fun x => get_hint_from_guess x ['C','H','E','S','T']))).length := by
  refine ⟨by decide, ?_⟩
  exact candidate_pool_monotone ['C','H','E','S','T']
    [['C','H','E','S','T'], ['C','R','A','N','E'], ['P','I','O','U','S']]
    [['C','R','A','N','E']] ['P','I','O','U','S']
    (by decide) (by decide) (by decide) (by decide)

/-! ### Aggregation of max_occurrences caps (claim C4) -/

/-- The cap a single guess/hint pair derives for a letter: the included
count recorded when the letter is both included and excluded within that
guess, and nothing otherwise. -/
def derived_cap (g : Word) (h : List HintS) (c : Char) : Option Nat :=
  dget c (process_guess Info.empty g h).max_occurrences

theorem process_guess_maxocc_derived (info : Info) (g : Word) (h : List HintS) (c : Char) :
    dget c (process_guess info g h).max_occurrences =
      match derived_cap g h c with
      | some n => some n
      | none => dget c info.max_occurrences := by
  rw [process_guess_maxocc_dget]
  unfold derived_cap
  rw [process_guess_maxocc_dget]
  split
  · rfl
  · rfl

theorem foldl_maxocc_last :
    ∀ (l : List (Word × List HintS)) (info : Info) (c : Char),
      dget c ((l.foldl (fun i p => process_guess i p.1 p.2) info)).max_occurrences =
        match (l.filterMap (fun p => derived_cap p.1 p.2 c)).getLast? with
        | some n => some n
        | none => dget c info.max_occurrences
  | [], _, _ => by simp
  | p :: rest, info, c => by
    rw [List.foldl_cons, foldl_maxocc_last rest _ c]
    cases hd : derived_cap p.1 p.2 c with
    | none =>
      rw [List.filterMap_cons_none (f := fun q : Word × List HintS => derived_cap q.1 q.2 c) (a := p) (l := rest) hd]
      cases hl : (rest.filterMap (fun p => derived_cap p.1 p.2 c)).getLast? with
      | none =>
        rw [process_guess_maxocc_derived, hd]
      | some m => rfl
    | some n =>
      rw [List.filterMap_cons_some (f := fun q : Word × List HintS => derived_cap q.1 q.2 c) (a := p) (l := rest) hd,
        show (n :: rest.filterMap (fun p => derived_cap p.1 p.2 c))
          = [n] ++ rest.filterMap (fun p => derived_cap p.1 p.2 c) from rfl,
        List.getLast?_append]
      cases hl : (rest.filterMap (fun p => derived_cap p.1 p.2 c)).getLast? with
      | none =>
        rw [process_guess_maxocc_derived, hd]
        rfl
      | some m => rfl

/-- Amended claim C4: when several guesses of a session each derive a
max_occurrences cap for the same letter, the aggregator keeps the most
recently derived cap (later guesses overwrite earlier ones); with honest
hints from a single answer every derived cap equals that letter's
occurrence count in the answer, so all derived caps coincide and the kept
cap is then also the tightest. -/
theorem max_occurrences_keeps_last :
    (∀ (guesses : List Word) (hints : List (List HintS)) (c : Char),
      dget c (get_info_from_hints guesses hints).max_occurrences =
        ((guesses.zip hints).filterMap (fun p => derived_cap p.1 p.2 c)).getLast?) ∧
    (∀ (g a : Word) (c : Char) (n : Nat), g.length = a.length →
      derived_cap g (hint_core g a) c = some n → n = a.count c) := by
  constructor
  · intro guesses hints c
    rw [get_info_from_hints, foldl_maxocc_last]
    cases ((guesses.zip hints).filterMap (fun p => derived_cap p.1 p.2 c)).getLast? with
    | none => rfl
    | some m => rfl
  · intro g a c n hlen hd
    unfold derived_cap at hd
    rw [process_guess_maxocc_dget] at hd
    split at hd
    · next hcond =>
      obtain ⟨k, hk⟩ := List.mem_iff_get?.mp hcond.2
      obtain ⟨hg, hh⟩ := get?_zip_eq_some hk
      have hcap := hint_core_cap hlen ⟨k, hg, hh⟩
      obtain rfl : n = (g.zip (hint_core g a)).countP (creditP c) :=
        Option.some.inj hd.symm
      exact hcap
    · exact absurd hd (by simp [Info.empty, dget])

/-- Counterexample to claim C4 as stated: two (necessarily inconsistent)
guess/hint pairs derive caps 1 and then 2 for the letter A; the aggregate
keeps the most recent cap 2, not the tightest cap 1. -/
theorem tightest_cap_counterexample :
    derived_cap ['A','A','A','A','A']
        [HintS.misplaced, HintS.wrong, HintS.wrong, HintS.wrong, HintS.wrong] 'A'
      = some 1 ∧
    derived_cap ['A','A','A','A','A']
        [HintS.misplaced, HintS.misplaced, HintS.wrong, HintS.wrong, HintS.wrong] 'A'
      = some 2 ∧
    dget 'A' (get_info_from_hints
        [['A','A','A','A','A'], ['A','A','A','A','A']]
        [[HintS.misplaced, HintS.wrong, HintS.wrong, HintS.wrong, HintS.wrong],
          [HintS.misplaced, HintS.misplaced, HintS.wrong, HintS.wrong, HintS.wrong]]
      ).max_occurrences = some 2 ∧
    ¬ dget 'A' (get_info_from_hints
        [['A','A','A','A','A'], ['A','A','A','A','A']]
        [[HintS.misplaced, HintS.wrong, HintS.wrong, HintS.wrong, HintS.wrong],
          [HintS.misplaced, HintS.misplaced, HintS.wrong, HintS.wrong, HintS.wrong]]
      ).max_occurrences = some 1 := by
  refine ⟨by decide, by decide, by decide, by decide⟩

/-- Witness for the amended C4: the aggregate of the two concrete hints
above keeps the later cap, and an honest cap equals the answer count. -/
theorem max_occurrences_keeps_last_witness :
    dget 'A' (get_info_from_hints
        [['A','A','A','A','A'], ['A','A','A','A','A']]
        [[HintS.misplaced, HintS.wrong, HintS.wrong, HintS.wrong, HintS.wrong],
          [HintS.misplaced, HintS.misplaced, HintS.wrong, HintS.wrong, HintS.wrong]]
      ).max_occurrences =
      (([ (['A','A','A','A','A'],
            [HintS.misplaced, HintS.wrong, HintS.wrong, HintS.wrong, HintS.wrong]),
          (['A','A','A','A','A'],
            [HintS.misplaced, HintS.misplaced, HintS.wrong, HintS.wrong, HintS.wrong])] :
        List (Word × List HintS)).filterMap
          (fun p => derived_cap p.1 p.2 'A')).getLast? ∧
    ((['A','A','A','A','A'] : Word).length = (['A','B','B','B','B'] : Word).length ∧
      (1 : Nat) = (['A','B','B','B','B'] : Word).count 'A') := by
  constructor
  · exact max_occurrences_keeps_last.1 [['A','A','A','A','A'], ['A','A','A','A','A']]
      [[HintS.misplaced, HintS.wrong, HintS.wrong, HintS.wrong, HintS.wrong],
        [HintS.misplaced, HintS.misplaced, HintS.wrong, HintS.wrong, HintS.wrong]] 'A'
  · refine ⟨by decide, ?_⟩
    exact max_occurrences_keeps_last.2 ['A','A','A','A','A'] ['A','B','B','B','B'] 'A' 1
      (by decide) (by decide)

/-! ### Entropy evaluator (src/wordle_fast.py lines 172-226)

Probabilities are rational-valued in the model where Python uses floats;
the logarithm-based information values live in the reals, so this layer is
noncomputable. -/

/-- The hints produced by the guess against each possible answer: the
iteration that fills freq_map in get_prob_and_iv. -/
def hint_list (guess : Word) (possible_words : List Word) : List (List HintS) :=
  possible_words.map (fun answer => get_hint_from_guess guess answer)

/-- The keys of freq_map (and hence of iv_map) in insertion order: each
distinct hint once, at its first occurrence. -/
def hint_buckets (guess : Word) (possible_words : List Word) : List (List HintS) :=
  pyDedup (hint_list guess possible_words)

/-- freq_map[hint]: how many possible answers produce the given hint. -/
def bucket_freq (guess : Word) (possible_words : List Word) (h : List HintS) : Nat :=
  (hint_list guess possible_words).count h

/-- iv_map[hint]['p'] of get_prob_and_iv: frequency over the number of
possible words. -/
def bucket_prob (guess : Word) (possible_words : List Word) (h : List HintS) : ℚ :=
  (bucket_freq guess possible_words h : ℚ) / (possible_words.length : ℚ)

/-- get_information_value of src/wordle_fast.py: math.log(1 / prob, 2).
Total model of the mathematical value; Python raises ZeroDivisionError at
prob = 0, which is modelled explicitly at the call site that can reach it
(get_best_move). -/
noncomputable def get_information_value (p : ℚ) : ℝ :=
  Real.logb 2 (1 / (p : ℝ))

/-- iv_map[hint]['I'] of get_prob_and_iv. -/
noncomputable def bucket_iv (guess : Word) (possible_words : List Word)
    (h : List HintS) : ℝ :=
  get_information_value (bucket_prob guess possible_words h)

/-- The bucket probabilities of a guess, in iv_map order. -/
def bucket_probs (guess : Word) (possible_words : List Word) : List ℚ :=
  (hint_buckets guess possible_words).map (bucket_prob guess possible_words)

/-- compute_entropy of src/wordle_fast.py: sums probability times
information value over the iv_map entries. -/
noncomputable def compute_entropy (guess : Word) (possible_words : List Word) : ℝ :=
  ((hint_buckets guess possible_words).map
    (fun h => (bucket_prob guess possible_words h : ℝ) *
      bucket_iv guess possible_words h)).sum

/-- _get_information_value of src/wordle.py lines 453-454: note the
NATURAL logarithm (math.log with no base), unlike the base-2 logarithm of
the wordle_fast.py variant. -/
noncomputable def information_value_py (num_possible num_total : Nat) : ℝ :=
  -(1 : ℝ) * Real.log ((num_possible : ℝ) / (num_total : ℝ))

/-- Ordering used by sort_by_entropy: descending by entropy. -/
def entGE (x y : Word × ℝ) : Prop := y.2 ≤ x.2

noncomputable instance : DecidableRel entGE :=
  fun x y => inferInstanceAs (Decidable (y.2 ≤ x.2))

instance : IsTotal (Word × ℝ) entGE := ⟨fun x y => le_total y.2 x.2⟩

instance : IsTrans (Word × ℝ) entGE := ⟨fun x y z hxy hyz => le_trans hyz hxy⟩

/-- sort_by_entropy of src/wordle_fast.py: Python's sorted with
key = entropy and reverse = True is the stable descending sort, which is
extensionally insertion sort by the decreasing-entropy relation. -/
noncomputable def sort_by_entropy (entropy_map : List (Word × ℝ)) : List Word :=
  (List.insertionSort entGE entropy_map).map Prod.fst

/-- compute_many_entropies of src/wordle_fast.py: entropy of every guess
(the e_map dict collapses duplicate guesses to their first occurrence),
then the stable descending sort. -/
noncomputable def compute_many_entropies (guesses : List Word)
    (possible_words : List Word) : List Word :=
  sort_by_entropy ((pyDedup guesses).map (fun g => (g, compute_entropy g possible_words)))

/-- Runtime errors reachable in get_best_move. -/
inductive MoveErr where
  | zeroDivision
  | emptyList
deriving DecidableEq, Repr

/-- get_best_move of src/wordle_fast.py with Python's runtime errors made
explicit. The possible answers are first restricted to the answer list;
the information value of the remaining fraction decides between exploring
the full word list and exploiting the possible answers. Python evaluates
get_information_value(len(possible_answers) / len(answer_list)), which
raises an unguarded ZeroDivisionError when the answer list is empty
(integer division by zero) or when no possible answer remains (1 / 0.0
inside get_information_value); best_moves[0] on an empty ranking would
raise IndexError. -/
noncomputable def get_best_move (possible_answers : List Word)
    (word_list answer_list : List Word) (iv_threshold : ℝ) : Except MoveErr Word :=
  let pa := possible_answers.filter (fun w => decide (w ∈ answer_list))
  if answer_list.length = 0 then Except.error MoveErr.zeroDivision
  else if pa.length = 0 then Except.error MoveErr.zeroDivision
  else
    let iv := get_information_value ((pa.length : ℚ) / (answer_list.length : ℚ))
    let best := if iv < iv_threshold then compute_many_entropies word_list pa
      else compute_many_entropies pa pa
    match best with
    | [] => Except.error MoveErr.emptyList
    | w :: _ => Except.ok w

/-- IV_THRESHOLD of src/wordle_fast.py. -/
noncomputable def IV_THRESHOLD : ℝ := 9

/-! ### Probability normalisation (claim C9) -/

theorem pyDedup_perm_dedup {α : Type} [DecidableEq α] (l : List α) :
    (pyDedup l).Perm l.dedup :=
  List.perm_of_nodup_nodup_toFinset_eq (nodup_pyDedup l) (List.nodup_dedup l)
    (by
      ext a
      simp [List.mem_toFinset, mem_pyDedup, List.mem_dedup])

theorem count_beq_eq_count_deq {α : Type} [DecidableEq α] [BEq α] [LawfulBEq α] (a : α) :
    ∀ l : List α, l.count a = @List.count α instBEqOfDecidableEq a l
  | [] => rfl
  | b :: t => by
    rw [List.count_cons, @List.count_cons α instBEqOfDecidableEq,
      count_beq_eq_count_deq a t]
    by_cases hb : b = a
    · simp [hb]
    · simp [hb]

theorem sum_count_pyDedup {α : Type} [DecidableEq α] [BEq α] [LawfulBEq α] (l : List α) :
    ((pyDedup l).map (fun x => l.count x)).sum = l.length := by
  rw [show ((pyDedup l).map (fun x => l.count x))
      = ((pyDedup l).map (fun x => @List.count α instBEqOfDecidableEq x l)) from
      List.map_congr_left (fun x _ => count_beq_eq_count_deq x l)]
  rw [((pyDedup_perm_dedup l).map _).sum_eq, List.sum_map_count_dedup_eq_length]

theorem sum_map_div {α : Type} (c : ℚ) (f : α → ℚ) :
    ∀ (l : List α), (l.map (fun x => f x / c)).sum = (l.map f).sum / c
  | [] => by simp
  | a :: t => by
    simp [sum_map_div c f t, add_div]

/-- Claim C9 (probability normalisation): for every guess and non-empty
possible-answers list, the per-bucket probabilities of get_prob_and_iv sum
to one (exactly, in the rational model of the float computation). -/
theorem bucket_probs_sum_one (guess : Word) (A : List Word) (hA : A ≠ []) :
    (bucket_probs guess A).sum = 1 := by
  have hn : (0 : ℚ) < (A.length : ℚ) := by
    have := List.length_pos.mpr hA
    exact_mod_cast this
  rw [bucket_probs]
  rw [show (hint_buckets guess A).map (bucket_prob guess A)
      = (hint_buckets guess A).map
        (fun h => ((hint_list guess A).count h : ℚ) / (A.length : ℚ)) from rfl]
  rw [sum_map_div]
  rw [show ((hint_buckets guess A).map (fun h => ((hint_list guess A).count h : ℚ)))
      = ((hint_buckets guess A).map (fun h => (hint_list guess A).count h)).map
        (fun n : ℕ => (n : ℚ)) from by rw [List.map_map]; rfl]
  rw [← Nat.cast_list_sum, hint_buckets, sum_count_pyDedup,
    show (hint_list guess A).length = A.length from List.length_map A _]
  exact div_self (ne_of_gt hn)

/-- Witness for C9 at a concrete input: two answers, one guess. -/
theorem bucket_probs_sum_one_witness :
    (([['A','A','A','A','A'], ['B','B','B','B','B']] : List Word) ≠ []) ∧
    (bucket_probs ['A','A','A','A','A']
      [['A','A','A','A','A'], ['B','B','B','B','B']]).sum = 1 :=
  ⟨by decide, bucket_probs_sum_one ['A','A','A','A','A']
    [['A','A','A','A','A'], ['B','B','B','B','B']] (by decide)⟩

/-! ### Information value per bucket (claim C6) -/

theorem bucket_prob_pos {guess : Word} {A : List Word} (hA : A ≠ []) {h : List HintS}
    (hmem : h ∈ hint_buckets guess A) :
    0 < bucket_prob guess A h ∧ bucket_prob guess A h ≤ 1 := by
  have hn : (0 : ℚ) < (A.length : ℚ) := by
    have := List.length_pos.mpr hA
    exact_mod_cast this
  have hcnt : 0 < bucket_freq guess A h := by
    rw [bucket_freq]
    exact List.count_pos_iff.mpr (mem_pyDedup.mp hmem)
  have hle : bucket_freq guess A h ≤ A.length := by
    rw [bucket_freq, ← show (hint_list guess A).length = A.length from List.length_map A _]
    exact List.count_le_length _ _
  constructor
  · rw [bucket_prob]
    refine div_pos ?_ hn
    exact_mod_cast hcnt
  · rw [bucket_prob, div_le_one hn]
    exact_mod_cast hle

/-- Amended claim C6: in the wordle_fast.py evaluator, every hint bucket
has probability 0 < p ≤ 1 and its information value log2(1/p) equals
-log2(p); the entropy is the sum of p times that value over the buckets.
(The wordle.py variant assigns natural-logarithm information values, see
the counterexample.) -/
theorem bucket_information_value (guess : Word) (A : List Word) (hA : A ≠ []) :
    (∀ h ∈ hint_buckets guess A,
      0 < bucket_prob guess A h ∧ bucket_prob guess A h ≤ 1 ∧
        bucket_iv guess A h = -Real.logb 2 ((bucket_prob guess A h : ℝ))) ∧
    compute_entropy guess A = ((hint_buckets guess A).map
      (fun h => (bucket_prob guess A h : ℝ) *
        (-Real.logb 2 ((bucket_prob guess A h : ℝ))))).sum := by
  have hiv : ∀ h, bucket_iv guess A h = -Real.logb 2 ((bucket_prob guess A h : ℝ)) := by
    intro h
    rw [bucket_iv, get_information_value, one_div, Real.logb_inv]
  constructor
  · intro h hmem
    obtain ⟨h1, h2⟩ := bucket_prob_pos hA hmem
    exact ⟨h1, h2, hiv h⟩
  · rw [compute_entropy]
    refine congrArg List.sum (List.map_congr_left ?_)
    intro h hmem
    rw [hiv h]

/-- Counterexample to claim C6 as stated: the wordle.py variant's
information value at the ratio one half is ln 2, not 1 = -log2(1/2) bits;
the two variants differ by the factor ln 2. -/
theorem information_value_base_counterexample :
    information_value_py 1 2 = Real.log 2 ∧
    -Real.logb 2 ((1 : ℝ) / 2) = 1 ∧
    information_value_py 1 2 ≠ -Real.logb 2 ((1 : ℝ) / 2) := by
  have h1 : information_value_py 1 2 = Real.log 2 := by
    rw [information_value_py]
    push_cast
    rw [one_div, Real.log_inv]
    ring
  have h2 : -Real.logb 2 ((1 : ℝ) / 2) = 1 := by
    rw [one_div, Real.logb_inv, neg_neg, Real.logb_self_eq_one one_lt_two]
  refine ⟨h1, h2, ?_⟩
  rw [h1, h2]
  have := Real.log_two_lt_d9
  intro hq
  rw [hq] at this
  norm_num at this

/-- Witness for the amended C6 at a concrete input. -/
theorem bucket_information_value_witness :
    (([['A','A','A','A','A'], ['B','B','B','B','B']] : List Word) ≠ []) ∧
    compute_entropy ['A','A','A','A','A'] [['A','A','A','A','A'], ['B','B','B','B','B']] =
      ((hint_buckets ['A','A','A','A','A'] [['A','A','A','A','A'], ['B','B','B','B','B']]).map
        (fun h => (bucket_prob ['A','A','A','A','A']
            [['A','A','A','A','A'], ['B','B','B','B','B']] h : ℝ) *
          (-Real.logb 2 ((bucket_prob ['A','A','A','A','A']
            [['A','A','A','A','A'], ['B','B','B','B','B']] h : ℝ))))).sum :=
  ⟨by decide, (bucket_information_value ['A','A','A','A','A']
    [['A','A','A','A','A'], ['B','B','B','B','B']] (by decide)).2⟩

/-! ### Empty possible-answers pool in get_best_move (claim C5) -/

/-- Claim C5 (refuted by the code): when every word of the possible-answers
pool is discarded by the answer-list membership filter, get_best_move of
src/wordle_fast.py evaluates get_information_value(0 / len(answer_list)) =
log(1/0.0, 2) and raises an unguarded ZeroDivisionError; no explicit guard
or fatal no-consistent-candidate signal exists on that path. -/
theorem get_best_move_zero_division (possible_answers word_list answer_list : List Word)
    (t : ℝ)
    (hempty : possible_answers.filter (fun w => decide (w ∈ answer_list)) = []) :
    get_best_move possible_answers word_list answer_list t
      = Except.error MoveErr.zeroDivision := by
  rw [get_best_move]
  simp only [hempty, List.length_nil, ite_true, ite_self]

/-- Witness for C5: a nonempty pool disjoint from the answer list. -/
theorem get_best_move_zero_division_witness :
    (([['B','B','B','B','B']] : List Word).filter
      (fun w => decide (w ∈ ([['A','A','A','A','A']] : List Word))) = []) ∧
    get_best_move [['B','B','B','B','B']] [['C','C','C','C','C']]
      [['A','A','A','A','A']] 9 = Except.error MoveErr.zeroDivision :=
  ⟨by decide, get_best_move_zero_division [['B','B','B','B','B']]
    [['C','C','C','C','C']] [['A','A','A','A','A']] 9 (by decide)⟩

/-! ### The entropy ranking's head (claims C8 and C10) -/

theorem compute_many_entropies_head (G pa : List Word) (hG : G ≠ []) :
    ∃ w rest, compute_many_entropies G pa = w :: rest ∧ w ∈ G ∧
      ∀ g ∈ G, compute_entropy g pa ≤ compute_entropy w pa := by
  obtain ⟨a, t, rfl⟩ := List.exists_cons_of_ne_nil hG
  set em := (pyDedup (a :: t)).map (fun g => (g, compute_entropy g pa)) with hem
  have hperm : (em.insertionSort entGE).Perm em := List.perm_insertionSort entGE em
  have hlen : (em.insertionSort entGE).length = em.length := hperm.length_eq
  have hemne : em ≠ [] := by
    rw [hem]
    simp [pyDedup]
  have hsne : em.insertionSort entGE ≠ [] := by
    intro h0
    rw [h0] at hlen
    exact hemne (List.length_eq_zero.mp hlen.symm)
  obtain ⟨p, ps, hs⟩ := List.exists_cons_of_ne_nil hsne
  have hpem : p ∈ em := hperm.mem_iff.mp (by rw [hs]; exact List.mem_cons_self p ps)
  obtain ⟨g0, hg0mem, hg0⟩ := List.mem_map.mp hpem
  have hsorted := List.sorted_insertionSort entGE em
  rw [hs] at hsorted
  have hp2 : p.2 = compute_entropy p.1 pa := by rw [← hg0]
  refine ⟨p.1, ps.map Prod.fst, ?_, ?_, ?_⟩
  · rw [compute_many_entropies, sort_by_entropy, ← hem, hs, List.map_cons]
  · have : p.1 = g0 := by rw [← hg0]
    rw [this]
    exact mem_pyDedup.mp hg0mem
  · intro g hg
    have hmem_em : (g, compute_entropy g pa) ∈ em := by
      rw [hem]
      exact List.mem_map.mpr ⟨g, mem_pyDedup.mpr hg, rfl⟩
    have hmem_s : (g, compute_entropy g pa) ∈ p :: ps := by
      rw [← hs]
      exact hperm.mem_iff.mpr hmem_em
    rcases List.mem_cons.mp hmem_s with heq | hmem
    · have h2 : compute_entropy g pa = p.2 := by rw [← heq]
      rw [h2, hp2]
    · have hrel := List.rel_of_sorted_cons hsorted _ hmem
      have hrel2 : compute_entropy g pa ≤ p.2 := hrel
      rw [hp2] at hrel2
      exact hrel2

/-- Claim C10 (implicit): get_best_move keeps only pool words that belong
to the answer list; when the information value of the surviving fraction
is at or above the threshold, the move returned is a member of both the
input pool and the answer list. -/
theorem best_move_member (ps word_list al : List Word) (t : ℝ)
    (hal : al.length ≠ 0)
    (hpa : ps.filter (fun w => decide (w ∈ al)) ≠ [])
    (hiv : ¬ get_information_value
      (((ps.filter (fun w => decide (w ∈ al))).length : ℚ) / (al.length : ℚ)) < t) :
    ∃ w, get_best_move ps word_list al t = Except.ok w ∧ w ∈ ps ∧ w ∈ al := by
  obtain ⟨w, rest, hcme, hwmem, _⟩ :=
    compute_many_entropies_head (ps.filter (fun w => decide (w ∈ al)))
      (ps.filter (fun w => decide (w ∈ al))) hpa
  have hwf := List.mem_filter.mp hwmem
  refine ⟨w, ?_, hwf.1, of_decide_eq_true hwf.2⟩
  rw [get_best_move]
  simp only []
  rw [if_neg hal, if_neg (fun h0 => hpa (List.length_eq_zero.mp h0)),
    if_neg hiv, hcme]

/-- Witness for C10: singleton pool equal to the answer list, threshold
zero. -/
theorem best_move_member_witness :
    ∃ w, get_best_move [['A','A','A','A','A']] [['C','C','C','C','C']]
        [['A','A','A','A','A']] 0 = Except.ok w ∧
      w ∈ ([['A','A','A','A','A']] : List Word) ∧
      w ∈ ([['A','A','A','A','A']] : List Word) :=
  best_move_member [['A','A','A','A','A']] [['C','C','C','C','C']]
    [['A','A','A','A','A']] 0 (by decide) (by decide)
    (by
      have h5 : (([['A','A','A','A','A']] : List Word).filter
          (fun w => decide (w ∈ ([['A','A','A','A','A']] : List Word)))) =
          [['A','A','A','A','A']] := by decide
      rw [h5]
      simp [get_information_value])

theorem list_sum_zero_of_nonneg :
    ∀ (l : List ℝ), (∀ x ∈ l, 0 ≤ x) → l.sum = 0 → ∀ x ∈ l, x = 0
  | [], _, _, x, hx => absurd hx (List.not_mem_nil x)
  | a :: t, hpos, hsum, x, hx => by
    rw [List.sum_cons] at hsum
    have hts : 0 ≤ t.sum :=
      List.sum_nonneg (fun y hy => hpos y (List.mem_cons_of_mem a hy))
    have ha : 0 ≤ a := hpos a (List.mem_cons_self a t)
    have ha0 : a = 0 := by linarith
    have ht0 : t.sum = 0 := by linarith
    rcases List.mem_cons.mp hx with rfl | hxt
    · exact ha0
    · exact list_sum_zero_of_nonneg t
        (fun y hy => hpos y (List.mem_cons_of_mem a hy)) ht0 x hxt

/-- Claim C8: over a non-empty guess universe and non-empty
possible-answers list, the first guess of the entropy ranking attains the
maximum entropy, and a guess has entropy zero only if every possible
answer produces the same hint against it. -/
theorem entropy_ranking (G A : List Word) (hG : G ≠ []) (hA : A ≠ []) :
    (∃ w rest, compute_many_entropies G A = w :: rest ∧ w ∈ G ∧
      ∀ g ∈ G, compute_entropy g A ≤ compute_entropy w A) ∧
    (∀ g, compute_entropy g A = 0 →
      ∀ a ∈ A, ∀ b ∈ A, get_hint_from_guess g a = get_hint_from_guess g b) := by
  refine ⟨compute_many_entropies_head G A hG, ?_⟩
  intro g hent a ha b hb
  have hterm_nonneg : ∀ x ∈ (hint_buckets g A).map
      (fun h => (bucket_prob g A h : ℝ) * bucket_iv g A h), 0 ≤ x := by
    intro x hx
    obtain ⟨h, hhmem, rfl⟩ := List.mem_map.mp hx
    obtain ⟨hp0, hp1⟩ := bucket_prob_pos hA hhmem
    have hp0R : (0 : ℝ) < ((bucket_prob g A h : ℚ) : ℝ) := by exact_mod_cast hp0
    have hp1R : ((bucket_prob g A h : ℚ) : ℝ) ≤ 1 := by exact_mod_cast hp1
    have hiv : 0 ≤ bucket_iv g A h := by
      rw [bucket_iv, get_information_value]
      exact Real.logb_nonneg one_lt_two (one_le_one_div hp0R hp1R)
    exact mul_nonneg (le_of_lt hp0R) hiv
  have hall0 := list_sum_zero_of_nonneg _ hterm_nonneg hent
  have hbucket1 : ∀ h ∈ hint_buckets g A, bucket_prob g A h = 1 := by
    intro h hhmem
    obtain ⟨hp0, hp1⟩ := bucket_prob_pos hA hhmem
    have hp0R : (0 : ℝ) < ((bucket_prob g A h : ℚ) : ℝ) := by exact_mod_cast hp0
    have ht0 : (bucket_prob g A h : ℝ) * bucket_iv g A h = 0 :=
      hall0 _ (List.mem_map.mpr ⟨h, hhmem, rfl⟩)
    have hiv0 : bucket_iv g A h = 0 := by
      rcases mul_eq_zero.mp ht0 with hc | hc
      · exact absurd hc (ne_of_gt hp0R)
      · exact hc
    by_contra hne
    have hplt : ((bucket_prob g A h : ℚ) : ℝ) < 1 := by
      have : bucket_prob g A h < 1 := lt_of_le_of_ne hp1 hne
      exact_mod_cast this
    have : 0 < bucket_iv g A h := by
      rw [bucket_iv, get_information_value]
      exact Real.logb_pos one_lt_two (one_lt_one_div hp0R hplt)
    rw [hiv0] at this
    exact lt_irrefl 0 this
  have hlenA : (0 : ℚ) < (A.length : ℚ) := by
    have := List.length_pos.mpr hA
    exact_mod_cast this
  have hcount : ∀ h ∈ hint_buckets g A,
      (hint_list g A).count h = (hint_list g A).length := by
    intro h hhmem
    have h1 := hbucket1 h hhmem
    rw [bucket_prob, div_eq_one_iff_eq (ne_of_gt hlenA)] at h1
    have : bucket_freq g A h = A.length := by exact_mod_cast h1
    rw [bucket_freq] at this
    rw [this, hint_list, List.length_map]
  have hha : get_hint_from_guess g a ∈ hint_buckets g A := by
    rw [hint_buckets]
    exact mem_pyDedup.mpr (List.mem_map.mpr ⟨a, ha, rfl⟩)
  have hallsame := List.count_eq_length.mp (hcount _ hha)
  have hbmem : get_hint_from_guess g b ∈ hint_list g A :=
    List.mem_map.mpr ⟨b, hb, rfl⟩
  exact hallsame _ hbmem

/-- Witness for C8 at a concrete universe and pool. -/
theorem entropy_ranking_witness :
    (∃ w rest, compute_many_entropies [['A','A','A','A','A']] [['B','B','B','B','B']]
        = w :: rest ∧ w ∈ ([['A','A','A','A','A']] : List Word) ∧
      ∀ g ∈ ([['A','A','A','A','A']] : List Word),
        compute_entropy g [['B','B','B','B','B']] ≤
          compute_entropy w [['B','B','B','B','B']]) ∧
    (∀ g, compute_entropy g [['B','B','B','B','B']] = 0 →
      ∀ a ∈ ([['B','B','B','B','B']] : List Word),
        ∀ b ∈ ([['B','B','B','B','B']] : List Word),
          get_hint_from_guess g a = get_hint_from_guess g b) :=
  entropy_ranking [['A','A','A','A','A']] [['B','B','B','B','B']]
    (by decide) (by decide)

/-! ### Game.guess of src/wordle.py (claim C7)

The object-oriented game of src/wordle.py lines 202-303: a Word stores a
raw string whose `.word` property upper-cases it, Game holds the answer,
the accepted word list and the guess history, and guess() either returns
False (game over), raises ValueError (wrong length, not in the lexicon,
or failing the alphabetic regex), or appends one guess to the history and
returns True. -/

def WORD_SIZE : Nat := 5

def NUM_GUESSES : Nat := 6

/-- One character class of the regex [a-zA-Z]+$ in Game.guess. -/
def is_alpha (c : Char) : Bool :=
  (decide ('A' ≤ c) && decide (c ≤ 'Z')) || (decide ('a' ≤ c) && decide (c ≤ 'z'))

/-- re.match([a-zA-Z]+$, s): at least one character, all alphabetic. -/
def regex_alpha (s : Word) : Bool := !s.isEmpty && s.all is_alpha

/-- Game state of src/wordle.py: the answer, the accepted word list and
the guesses made so far, each a list of letters with their states. -/
structure PyGame where
  answer : Word
  word_list : List Word
  guesses : List (List (Char × HintS))
deriving DecidableEq, Repr

/-- Game.is_won: at least one guess, and every letter of the last guess is
in the CORRECT state. -/
def is_won (st : PyGame) : Bool :=
  match st.guesses.getLast? with
  | none => false
  | some last => last.all (fun l => l.2 == HintS.correct)

/-- Game.is_over: out of guesses, or won. -/
def is_over (st : PyGame) : Bool :=
  decide (NUM_GUESSES ≤ st.guesses.length) || is_won st

/-- How Game.guess of src/wordle.py returns: False when the game is over,
ValueError for an invalid word, or True with the new guess appended. -/
inductive GuessOutcome where
  | returnedFalse
  | raisedError
  | accepted
deriving DecidableEq, Repr

/-- Game.guess of src/wordle.py lines 275-303. Word equality (`in
self.word_list`) compares upper-cased strings; the mask is computed on the
upper-cased guess and answer; the regex check runs on the upper-cased
guess, so a lexicon word with a non-alphabetic character still raises. -/
def PyGame.guess (st : PyGame) (w : Word) (skip_validation : Bool) :
    GuessOutcome × PyGame :=
  if is_over st then (GuessOutcome.returnedFalse, st)
  else if w.length ≠ WORD_SIZE then (GuessOutcome.raisedError, st)
  else if !st.word_list.any (fun v => pyUpper v == pyUpper w) && !skip_validation then
    (GuessOutcome.raisedError, st)
  else if !regex_alpha (pyUpper w) then (GuessOutcome.raisedError, st)
  else (GuessOutcome.accepted,
    { st with guesses := st.guesses ++
        [(pyUpper w).zip (guess_mask (pyUpper w) (pyUpper st.answer))] })

/-- Amended claim C7: Game.guess returns False with no state change when
the session is terminal; raises (with no state change) on wrong length,
on a word outside the lexicon when validation is not skipped, and also on
a word failing the alphabetic regex [a-zA-Z]+$ (a rejection the claim
omits); in every remaining case it appends exactly one masked guess to
the history. -/
theorem game_guess_behaviour (st : PyGame) (w : Word) (sv : Bool) :
    (is_over st = true → PyGame.guess st w sv = (GuessOutcome.returnedFalse, st)) ∧
    (is_over st = false → w.length ≠ WORD_SIZE →
      PyGame.guess st w sv = (GuessOutcome.raisedError, st)) ∧
    (is_over st = false → w.length = WORD_SIZE →
      st.word_list.any (fun v => pyUpper v == pyUpper w) = false → sv = false →
      PyGame.guess st w sv = (GuessOutcome.raisedError, st)) ∧
    (is_over st = false → w.length = WORD_SIZE →
      (st.word_list.any (fun v => pyUpper v == pyUpper w) = true ∨ sv = true) →
      regex_alpha (pyUpper w) = false →
      PyGame.guess st w sv = (GuessOutcome.raisedError, st)) ∧
    (is_over st = false → w.length = WORD_SIZE →
      (st.word_list.any (fun v => pyUpper v == pyUpper w) = true ∨ sv = true) →
      regex_alpha (pyUpper w) = true →
      PyGame.guess st w sv = (GuessOutcome.accepted,
        { st with guesses := st.guesses ++
            [(pyUpper w).zip (guess_mask (pyUpper w) (pyUpper st.answer))] })) := by
  refine ⟨?_, ?_, ?_, ?_, ?_⟩
  · intro hover
    simp [PyGame.guess, hover]
  · intro hover hlen
    simp [PyGame.guess, hover, hlen]
  · intro hover hlen hmem hsv
    simp [PyGame.guess, hover, hlen, hmem, hsv]
  · intro hover hlen hin hreg
    rcases hin with hin | hin
    · simp [PyGame.guess, hover, hlen, hin, hreg]
    · simp [PyGame.guess, hover, hlen, hin, hreg]
  · intro hover hlen hin hreg
    rcases hin with hin | hin
    · simp [PyGame.guess, hover, hlen, hin, hreg]
    · simp [PyGame.guess, hover, hlen, hin, hreg]

/-- Counterexample to claim C7 as stated: AB1DE has the required length
and is a member of the lexicon, the session is not terminal, yet
Game.guess raises (the regex rejection) and appends nothing, where the
claim promises a hint is computed and appended. -/
theorem game_guess_lexicon_counterexample :
    is_over ⟨['A','B','C','D','E'], [['A','B','1','D','E']], []⟩ = false ∧
    (['A','B','1','D','E'] : Word).length = WORD_SIZE ∧
    (([['A','B','1','D','E']] : List Word).any
      (fun v => pyUpper v == pyUpper ['A','B','1','D','E'])) = true ∧
    PyGame.guess ⟨['A','B','C','D','E'], [['A','B','1','D','E']], []⟩
        ['A','B','1','D','E'] false
      = (GuessOutcome.raisedError,
         ⟨['A','B','C','D','E'], [['A','B','1','D','E']], []⟩) := by
  decide

/-- Witness for the amended C7 at an accepting input: the guess CRANE
against answer CHEST is appended as the single new history entry. -/
theorem game_guess_behaviour_witness :
    PyGame.guess ⟨['C','H','E','S','T'], [['C','R','A','N','E']], []⟩
        ['C','R','A','N','E'] false
      = (GuessOutcome.accepted,
         ⟨['C','H','E','S','T'], [['C','R','A','N','E']],
          [(pyUpper ['C','R','A','N','E']).zip
            (guess_mask (pyUpper ['C','R','A','N','E'])
              (pyUpper ['C','H','E','S','T']))]⟩) :=
  (game_guess_behaviour ⟨['C','H','E','S','T'], [['C','R','A','N','E']], []⟩
      ['C','R','A','N','E'] false).2.2.2.2
    (by decide) (by decide) (Or.inl (by decide)) (by decide)

end Wordle
